import Mathlib

/-!
Verification of the univariate Ore-operator arithmetic engine
(`ore_operator.py`, classes `OreOperator` / `UnivariateOreOperator` and the
four polynomial-remainder-sequence strategies).

Shallow embedding.  An Ore operator is represented, as in the source, by its
dense coefficient list `[c0, c1, ..., cn]` over the base ring with no trailing
zero (the associated commutative polynomial `self._poly`).  The coefficients
live in a field `K`; this models both the case where the base ring of the
algebra is a field and the case of a non-field base ring embedded in its
fraction field (the source promotes to the fraction field whenever true
division is required; for a non-field base ring the flag `isField := false`
of the `OreBase` descriptor below drives exactly the promotion branches the
source has, while the coefficients are carried in the fraction field `K`
throughout, e.g. integers carried as rationals).  The twisting data `sigma`
(a ring automorphism) and `delta` (a `sigma`-derivation) are those of the
`OreAlgebra` parent.
-/

set_option linter.unusedSectionVars false

section RawLists

variable {K : Type} [Field K] [DecidableEq K]

/-- Coefficient of `X^n` in a raw coefficient list (0 beyond the end). -/
def coeff (l : List K) (n : Nat) : K := l.getD n 0

/-- Remove trailing zeros: the normalisation invariant of the source's dense
polynomial representation (`self._poly` never has a trailing zero). -/
def trim : List K → List K
  | [] => []
  | a :: as =>
    match trim as with
    | [] => if a = 0 then [] else [a]
    | b :: bs => a :: b :: bs

/-- Coefficient-wise sum of two raw lists (`_add_` of the source, which adds
the underlying commutative polynomials). -/
def addL : List K → List K → List K
  | [], m => m
  | l, [] => l
  | a :: as, b :: bs => (a + b) :: addL as bs

/-- Coefficient-wise negation (`_neg_`). -/
def negL (l : List K) : List K := l.map (fun a => -a)

/-- Left multiplication by a base-ring element. -/
def smulL (c : K) (l : List K) : List K := l.map (fun a => c * a)

/-- Multiplication by the generator on the right: `p * D` in the associated
commutative algebra shifts the coefficient list. -/
def shiftL (l : List K) : List K := 0 :: l

@[simp] theorem coeff_nil (n : Nat) : coeff ([] : List K) n = 0 := rfl

@[simp] theorem coeff_cons_zero (a : K) (l : List K) : coeff (a :: l) 0 = a := rfl

@[simp] theorem coeff_cons_succ (a : K) (l : List K) (n : Nat) :
    coeff (a :: l) (n + 1) = coeff l n := rfl

theorem coeff_eq_zero_of_length_le {l : List K} {n : Nat} (h : l.length ≤ n) :
    coeff l n = 0 := by
  induction l generalizing n with
  | nil => rfl
  | cons a as ih =>
    cases n with
    | zero => simp at h
    | succ n => simpa [coeff] using ih (by simpa using h)

theorem lt_length_of_coeff_ne_zero {l : List K} {n : Nat} (h : coeff l n ≠ 0) :
    n < l.length := by
  by_contra hn
  exact h (coeff_eq_zero_of_length_le (le_of_not_lt hn))

@[simp] theorem coeff_addL (l m : List K) (n : Nat) :
    coeff (addL l m) n = coeff l n + coeff m n := by
  induction l generalizing m n with
  | nil => simp [addL]
  | cons a as ih =>
    cases m with
    | nil => simp [addL]
    | cons b bs =>
      cases n with
      | zero => simp [addL]
      | succ n => simpa [addL] using ih bs n

@[simp] theorem coeff_negL (l : List K) (n : Nat) :
    coeff (negL l) n = -coeff l n := by
  induction l generalizing n with
  | nil => simp [negL]
  | cons a as ih =>
    cases n with
    | zero => simp [negL, coeff]
    | succ n => simpa [negL, coeff] using ih n

@[simp] theorem coeff_smulL (c : K) (l : List K) (n : Nat) :
    coeff (smulL c l) n = c * coeff l n := by
  induction l generalizing n with
  | nil => simp [smulL]
  | cons a as ih =>
    cases n with
    | zero => simp [smulL, coeff]
    | succ n => simpa [smulL, coeff] using ih n

@[simp] theorem coeff_shiftL_zero (l : List K) : coeff (shiftL l) 0 = 0 := rfl

@[simp] theorem coeff_shiftL_succ (l : List K) (n : Nat) :
    coeff (shiftL l) (n + 1) = coeff l n := rfl

@[simp] theorem coeff_trim (l : List K) (n : Nat) : coeff (trim l) n = coeff l n := by
  induction l generalizing n with
  | nil => rfl
  | cons a as ih =>
    show coeff (trim (a :: as)) n = coeff (a :: as) n
    rw [trim]
    cases hta : trim as with
    | nil =>
      have hz : ∀ m, coeff as m = 0 := by
        intro m
        have := ih m
        rw [hta] at this
        exact this.symm
      by_cases ha : a = 0
      · simp only [ha, if_pos rfl]
        cases n with
        | zero => simp
        | succ n => simp [hz n]
      · simp only [if_neg ha]
        cases n with
        | zero => simp
        | succ n => simpa [coeff] using (hz n).symm
    | cons b bs =>
      cases n with
      | zero => simp
      | succ n =>
        have := ih n
        rw [hta] at this
        simpa using this

theorem trim_getLast? (l : List K) : (trim l).getLast? ≠ some 0 := by
  induction l with
  | nil => simp [trim]
  | cons a as ih =>
    rw [trim]
    cases hta : trim as with
    | nil =>
      by_cases ha : a = 0
      · simp [ha]
      · simp [ha, List.getLast?_singleton]
    | cons b bs =>
      rw [hta] at ih
      simpa [List.getLast?_cons_cons] using ih

theorem trim_eq_self_of_getLast? {l : List K} (h : l.getLast? ≠ some 0) : trim l = l := by
  induction l with
  | nil => rfl
  | cons a as ih =>
    rw [trim]
    cases as with
    | nil =>
      have ha : a ≠ 0 := by simpa [List.getLast?_singleton] using h
      simp [trim, ha]
    | cons b bs =>
      have hta : trim (b :: bs) = b :: bs := by
        apply ih
        simpa [List.getLast?_cons_cons] using h
      rw [hta]

@[simp] theorem trim_trim (l : List K) : trim (trim l) = trim l :=
  trim_eq_self_of_getLast? (trim_getLast? l)

theorem getLast?_ne_getD {l : List K} (h : l.getLast? ≠ some 0) (hne : l ≠ []) :
    coeff l (l.length - 1) ≠ 0 := by
  induction l with
  | nil => exact absurd rfl hne
  | cons a as ih =>
    cases as with
    | nil => simpa [coeff, List.getLast?_singleton] using h
    | cons b bs =>
      have h2 : (b :: bs).getLast? ≠ some 0 := by
        simpa [List.getLast?_cons_cons] using h
      have := ih h2 (by simp)
      simpa [coeff, List.length_cons, Nat.succ_sub_one] using this

theorem ext_trimmed {l m : List K} (hl : l.getLast? ≠ some 0) (hm : m.getLast? ≠ some 0)
    (h : ∀ n, coeff l n = coeff m n) : l = m := by
  induction l generalizing m with
  | nil =>
    cases m with
    | nil => rfl
    | cons b bs =>
      exfalso
      have hb : coeff (b :: bs) ((b :: bs).length - 1) ≠ 0 := getLast?_ne_getD hm (by simp)
      rw [← h _] at hb
      exact hb (coeff_nil _)
  | cons a as ih =>
    cases m with
    | nil =>
      exfalso
      have ha : coeff (a :: as) ((a :: as).length - 1) ≠ 0 := getLast?_ne_getD hl (by simp)
      rw [h _] at ha
      exact ha (coeff_nil _)
    | cons b bs =>
      have hab : a = b := h 0
      cases as with
      | nil =>
        cases bs with
        | nil => rw [hab]
        | cons c cs =>
          exfalso
          have hc : coeff (c :: cs) ((c :: cs).length - 1) ≠ 0 := by
            have h2 : (c :: cs).getLast? ≠ some 0 := by
              simpa [List.getLast?_cons_cons] using hm
            exact getLast?_ne_getD h2 (by simp)
          have := h ((c :: cs).length - 1 + 1)
          simp only [coeff_cons_succ] at this
          rw [← this] at hc
          exact hc (coeff_eq_zero_of_length_le (by simp))
      | cons c cs =>
        cases bs with
        | nil =>
          exfalso
          have hc : coeff (c :: cs) ((c :: cs).length - 1) ≠ 0 := by
            have h2 : (c :: cs).getLast? ≠ some 0 := by
              simpa [List.getLast?_cons_cons] using hl
            exact getLast?_ne_getD h2 (by simp)
          have := h ((c :: cs).length - 1 + 1)
          simp only [coeff_cons_succ] at this
          rw [this] at hc
          exact hc (coeff_eq_zero_of_length_le (by simp))
        | cons d ds =>
          have h1 : (c :: cs).getLast? ≠ some 0 := by
            simpa [List.getLast?_cons_cons] using hl
          have h2 : (d :: ds).getLast? ≠ some 0 := by
            simpa [List.getLast?_cons_cons] using hm
          have := ih h1 h2 (fun n => by simpa using h (n + 1))
          rw [hab, this]

theorem length_trim_le_iff {l : List K} {n : Nat} :
    (trim l).length ≤ n ↔ ∀ m, n ≤ m → coeff l m = 0 := by
  constructor
  · intro h m hm
    rw [← coeff_trim]
    exact coeff_eq_zero_of_length_le (le_trans h hm)
  · intro h
    by_contra hn
    push_neg at hn
    have hne : trim l ≠ [] := by
      intro he
      rw [he] at hn
      simp at hn
    have := getLast?_ne_getD (trim_getLast? l) hne
    rw [coeff_trim] at this
    exact this (h _ (by omega))

end RawLists

/-- The data of a univariate `OreAlgebra` over a base ring whose fraction
field is `K`: the twisting automorphism `sigma`, its inverse, the
`sigma`-derivation `delta`, and the base-ring capabilities the source calls
into: `is_field`, floor division `//` (`fdiv`), `gcd` (`bgcd`), the lcm of
coefficient denominators (`denomLcm`, used by
`OreOperator.numerator`/`denominator`), whether the base ring knows how to
compute gcds at all (`hasGcd`; when it does not, the `try` block of
`OreOperator.content` raises and the content degrades to 1), the number of
base-coefficient terms of an element (`bterms`, `len(p.coefficients())`,
queried by the `proof=False` shortcut of `content`), the sort key of
`content` (`bkey`: the degree when `R.ngens() == 1`, the number of
exponents otherwise), and the base-ring queries of the unit test of
`OreOperator.normalize`: `is_unit` (`bisUnit`), whether an element's
parent is its own base ring (`bisBottom`, the bottom of the coefficient
tower), the leading coefficient of a base-ring element (`blc`, one descent
step), and a bound on the height of the coefficient tower (`btower`; the
`while` loop of `normalize` terminates because parent chains are finite).
Over a field base ring every nonzero element is a unit and the descent is
trivial, which is the law `bisUnit_field`.  When the base
ring is not a field, its elements are carried inside `K` (the fraction
field) so that the source's `change_ring` promotions are the identity on
representations. -/
structure OreBase (K : Type) [Field K] [DecidableEq K] where
  sigma : K → K
  sigmaInv : K → K
  delta : K → K
  isField : Bool
  fdiv : K → K → K
  bgcd : K → K → K
  denomLcm : List K → K
  hasGcd : Bool
  bterms : K → Nat
  bkey : K → Nat
  bisUnit : K → Bool
  bisBottom : K → Bool
  blc : K → K
  btower : Nat
  sigma_add : ∀ a b, sigma (a + b) = sigma a + sigma b
  sigma_mul : ∀ a b, sigma (a * b) = sigma a * sigma b
  sigma_one : sigma 1 = 1
  sigmaInv_sigma : ∀ a, sigmaInv (sigma a) = a
  sigma_sigmaInv : ∀ a, sigma (sigmaInv a) = a
  delta_add : ∀ a b, delta (a + b) = delta a + delta b
  delta_mul : ∀ a b, delta (a * b) = sigma a * delta b + delta a * b
  denomLcm_ne_zero : ∀ l, denomLcm l ≠ 0
  bisUnit_field : isField = true → ∀ c, bisUnit c = !decide (c = 0)

namespace OreBase

variable {K : Type} [Field K] [DecidableEq K] (ob : OreBase K)

@[simp] theorem sigma_zero : ob.sigma 0 = 0 := by
  have := ob.sigma_add 0 0
  simp at this
  exact this

@[simp] theorem delta_zero : ob.delta 0 = 0 := by
  have := ob.delta_add 0 0
  simp at this
  exact this

@[simp] theorem delta_one : ob.delta 1 = 0 := by
  have := ob.delta_mul 1 1
  simp [ob.sigma_one] at this
  exact this

theorem sigma_injective : Function.Injective ob.sigma := by
  intro a b h
  have := congrArg ob.sigmaInv h
  simpa [ob.sigmaInv_sigma] using this

theorem sigma_ne_zero {a : K} (h : a ≠ 0) : ob.sigma a ≠ 0 := by
  intro h0
  exact h (ob.sigma_injective (by simpa using h0))

theorem sigma_iter_ne_zero {a : K} (h : a ≠ 0) (k : Nat) : (ob.sigma)^[k] a ≠ 0 := by
  induction k generalizing a with
  | zero => simpa using h
  | succ k ih =>
    rw [Function.iterate_succ_apply]
    exact ih (ob.sigma_ne_zero h)

@[simp] theorem sigma_neg (a : K) : ob.sigma (-a) = -ob.sigma a := by
  have := ob.sigma_add a (-a)
  simp at this
  linear_combination (-1 : K) * this

@[simp] theorem delta_neg (a : K) : ob.delta (-a) = -ob.delta a := by
  have := ob.delta_add a (-a)
  simp at this
  linear_combination (-1 : K) * this

theorem sigma_inv (a : K) : ob.sigma a⁻¹ = (ob.sigma a)⁻¹ := by
  by_cases h : a = 0
  · simp [h]
  · have h1 : ob.sigma a * ob.sigma a⁻¹ = 1 := by
      rw [← ob.sigma_mul, mul_inv_cancel₀ h, ob.sigma_one]
    have hs := ob.sigma_ne_zero h
    calc ob.sigma a⁻¹ = (ob.sigma a)⁻¹ * (ob.sigma a * ob.sigma a⁻¹) := by
          rw [← mul_assoc, inv_mul_cancel₀ hs, one_mul]
      _ = (ob.sigma a)⁻¹ := by rw [h1, mul_one]

theorem sigma_div (a b : K) : ob.sigma (a / b) = ob.sigma a / ob.sigma b := by
  rw [div_eq_mul_inv, ob.sigma_mul, ob.sigma_inv, div_eq_mul_inv]

/-- `sigma` extended to coefficient lists (`map_coefficients(sigma)`). -/
def mapSig (l : List K) : List K := l.map ob.sigma

/-- `delta` extended to coefficient lists (`map_coefficients(delta)`). -/
def mapDel (l : List K) : List K := l.map ob.delta

@[simp] theorem coeff_mapSig (l : List K) (n : Nat) :
    coeff (ob.mapSig l) n = ob.sigma (coeff l n) := by
  induction l generalizing n with
  | nil => simp [mapSig]
  | cons a as ih =>
    cases n with
    | zero => simp [mapSig, coeff]
    | succ n => simpa [mapSig, coeff] using ih n

@[simp] theorem coeff_mapDel (l : List K) (n : Nat) :
    coeff (ob.mapDel l) n = ob.delta (coeff l n) := by
  induction l generalizing n with
  | nil => simp [mapDel]
  | cons a as ih =>
    cases n with
    | zero => simp [mapDel, coeff]
    | succ n => simpa [mapDel, coeff] using ih n

/-- One step of the twisted-multiplication recurrence of `_mul_`:
`D^(i+1) * B = (D^i * B).map_coefficients(sigma) * D + (D^i * B).map_coefficients(delta)`. -/
def stepD (l : List K) : List K := addL (shiftL (ob.mapSig l)) (ob.mapDel l)

@[simp] theorem coeff_stepD_zero (l : List K) :
    coeff (ob.stepD l) 0 = ob.delta (coeff l 0) := by
  simp [stepD]

@[simp] theorem coeff_stepD_succ (l : List K) (n : Nat) :
    coeff (ob.stepD l) (n + 1) = ob.sigma (coeff l n) + ob.delta (coeff l (n + 1)) := by
  simp [stepD]

/-- The accumulation loop of `_mul_`: `res = sum coeffs[i] * (D^i * B)`,
consuming the coefficient list of the left operand while updating `D^i * B`
by `stepD`. -/
def mulAux : List K → List K → List K
  | [], _ => []
  | a :: as, b => addL (smulL a b) (mulAux as (ob.stepD b))

/-- `c * D^d` as a raw coefficient list. -/
def monomialL (c : K) (d : Nat) : List K := List.replicate d 0 ++ [c]

theorem monomialL_succ (c : K) (d : Nat) : monomialL c (d + 1) = 0 :: monomialL c d := by
  simp [monomialL, List.replicate_succ]

@[simp] theorem coeff_monomialL (c : K) (d n : Nat) :
    coeff (monomialL c d) n = if n = d then c else 0 := by
  induction d generalizing n with
  | zero =>
    cases n with
    | zero => simp [monomialL, coeff]
    | succ n => simp [monomialL, coeff]
  | succ d ih =>
    rw [monomialL_succ]
    cases n with
    | zero => simp
    | succ n =>
      rw [coeff_cons_succ, ih]
      simp

end OreBase

section DegreeBounds

variable {K : Type} [Field K] [DecidableEq K]

/-- All coefficients of the raw list from index `n` on vanish, i.e. the list
represents an operator of order `< n`. -/
def DegLt (l : List K) (n : Nat) : Prop := ∀ m, n ≤ m → coeff l m = 0

theorem degLt_of_length_le {l : List K} {n : Nat} (h : l.length ≤ n) : DegLt l n :=
  fun _ hm => coeff_eq_zero_of_length_le (le_trans h hm)

theorem DegLt.mono {l : List K} {n n' : Nat} (h : DegLt l n) (hn : n ≤ n') : DegLt l n' :=
  fun m hm => h m (le_trans hn hm)

theorem degLt_nil (n : Nat) : DegLt ([] : List K) n := fun _ _ => rfl

theorem degLt_addL {l m : List K} {n : Nat} (hl : DegLt l n) (hm : DegLt m n) :
    DegLt (addL l m) n := by
  intro k hk
  simp [hl k hk, hm k hk]

theorem degLt_smulL {l : List K} {n : Nat} (c : K) (h : DegLt l n) : DegLt (smulL c l) n := by
  intro k hk
  simp [h k hk]

theorem degLt_negL {l : List K} {n : Nat} (h : DegLt l n) : DegLt (negL l) n := by
  intro k hk
  simp [h k hk]

theorem length_trim_le_iff_degLt {l : List K} {n : Nat} :
    (trim l).length ≤ n ↔ DegLt l n := length_trim_le_iff

theorem degLt_length_trim (l : List K) : DegLt l (trim l).length :=
  length_trim_le_iff_degLt.mp le_rfl

end DegreeBounds

namespace OreBase

variable {K : Type} [Field K] [DecidableEq K] (ob : OreBase K)

theorem degLt_mapSig {l : List K} {n : Nat} (h : DegLt l n) : DegLt (ob.mapSig l) n := by
  intro k hk
  simp [h k hk]

theorem degLt_mapDel {l : List K} {n : Nat} (h : DegLt l n) : DegLt (ob.mapDel l) n := by
  intro k hk
  simp [h k hk]

theorem degLt_stepD {l : List K} {n : Nat} (h : DegLt l n) : DegLt (ob.stepD l) (n + 1) := by
  intro k hk
  cases k with
  | zero => omega
  | succ k =>
    rw [coeff_stepD_succ]
    have h1 : coeff l k = 0 := h k (by omega)
    have h2 : coeff l (k + 1) = 0 := h (k + 1) (by omega)
    simp [h1, h2]

theorem coeff_stepD_top {l : List K} {n : Nat} (h : DegLt l (n + 1)) :
    coeff (ob.stepD l) (n + 1) = ob.sigma (coeff l n) := by
  rw [coeff_stepD_succ]
  simp [h (n + 1) le_rfl]

theorem degLt_iterD {l : List K} {n : Nat} (h : DegLt l n) (k : Nat) :
    DegLt ((ob.stepD)^[k] l) (n + k) := by
  induction k with
  | zero => simpa using h
  | succ k ih =>
    rw [Function.iterate_succ_apply']
    have h2 := ob.degLt_stepD ih
    have e : n + k + 1 = n + (k + 1) := by omega
    rw [e] at h2
    exact h2

theorem coeff_iterD_top {l : List K} {n : Nat} (h : DegLt l (n + 1)) (k : Nat) :
    coeff ((ob.stepD)^[k] l) (n + k) = (ob.sigma)^[k] (coeff l n) := by
  induction k with
  | zero => simp
  | succ k ih =>
    rw [Function.iterate_succ_apply']
    have hd : DegLt ((ob.stepD)^[k] l) (n + 1 + k) := ob.degLt_iterD h k
    have : n + (k + 1) = (n + k) + 1 := by omega
    have e : n + 1 + k = n + k + 1 := by omega
    rw [e] at hd
    rw [this, ob.coeff_stepD_top hd, ih, Function.iterate_succ_apply']

theorem degLt_mulAux {as b : List K} {nb : Nat} (h : DegLt b nb) :
    DegLt (ob.mulAux as b) (as.length - 1 + nb) := by
  induction as generalizing b nb with
  | nil => exact degLt_nil _
  | cons a as ih =>
    rw [mulAux]
    apply degLt_addL
    · exact (degLt_smulL a h).mono (by omega)
    · cases as with
      | nil => exact (degLt_nil _)
      | cons a2 as2 =>
        have := ih (ob.degLt_stepD h)
        exact this.mono (by simp; omega)

theorem coeff_mulAux_top {b : List K} {nb : Nat} (as : List K) (a : K)
    (h : DegLt b (nb + 1)) :
    coeff (ob.mulAux (a :: as) b) (as.length + nb) =
      coeff (a :: as) as.length * (ob.sigma)^[as.length] (coeff b nb) := by
  induction as generalizing a b nb with
  | nil => simp [mulAux, addL]
  | cons a2 as2 ih =>
    rw [mulAux]
    rw [coeff_addL]
    have hz : coeff (smulL a b) ((a2 :: as2).length + nb) = 0 := by
      rw [coeff_smulL]
      have hb : coeff b ((a2 :: as2).length + nb) = 0 :=
        h _ (by simp only [List.length_cons]; omega)
      rw [hb, mul_zero]
    rw [hz, zero_add]
    have hs : DegLt (ob.stepD b) (nb + 1 + 1) := ob.degLt_stepD h
    have hstep : coeff (ob.stepD b) (nb + 1) = ob.sigma (coeff b nb) := ob.coeff_stepD_top h
    have := ih a2 hs
    simp only [List.length_cons]
    have harith : as2.length + 1 + nb = as2.length + (nb + 1) := by omega
    rw [harith, this, hstep]
    have : (ob.sigma)^[as2.length] (ob.sigma (coeff b nb)) =
        (ob.sigma)^[as2.length + 1] (coeff b nb) := by
      rw [Function.iterate_succ_apply]
    rw [this]
    simp

end OreBase

/-- A univariate Ore operator (`UnivariateOreOperator`): a trailing-zero-free
dense coefficient list (the source's `self._poly`), tagged by the algebra
descriptor `ob` that fixes the twisted arithmetic. -/
structure Op {K : Type} [Field K] [DecidableEq K] (ob : OreBase K) : Type where
  l : List K
  tr : trim l = l

namespace Op

variable {K : Type} [Field K] [DecidableEq K] {ob : OreBase K}

theorem eq_of_l_eq {x y : Op ob} (h : x.l = y.l) : x = y := by
  cases x
  cases y
  simpa using h

instance : DecidableEq (Op ob) := fun x y =>
  if h : x.l = y.l then isTrue (eq_of_l_eq h)
  else isFalse (fun he => h (congrArg Op.l he))

/-- Build an operator from a raw coefficient list (the coercion
`parent(...)` applied to a polynomial in the source). -/
def ofL (ob : OreBase K) (l : List K) : Op ob := ⟨trim l, trim_trim l⟩

/-- Coefficient access, `self[n]`. -/
def cf (x : Op ob) (n : Nat) : K := coeff x.l n

theorem getLast?_l (x : Op ob) : x.l.getLast? ≠ some 0 := x.tr ▸ trim_getLast? x.l

theorem extc {x y : Op ob} (h : ∀ n, x.cf n = y.cf n) : x = y :=
  eq_of_l_eq (ext_trimmed x.getLast?_l y.getLast?_l h)

@[simp] theorem cf_ofL (l : List K) (n : Nat) : (ofL ob l).cf n = coeff l n := by
  simp [ofL, cf]

instance : Zero (Op ob) := ⟨⟨[], rfl⟩⟩

instance : One (Op ob) := ⟨ofL ob [1]⟩

instance : Add (Op ob) := ⟨fun x y => ofL ob (addL x.l y.l)⟩

instance : Neg (Op ob) := ⟨fun x => ofL ob (negL x.l)⟩

instance : SMul K (Op ob) := ⟨fun c x => ofL ob (smulL c x.l)⟩

/-- Twisted multiplication, `_mul_` of the source: accumulate
`sum coeffs[i] * (D^i * B)` with the recurrence `stepD` for `D^i * B`;
a zero operand short-circuits. -/
instance : Mul (Op ob) :=
  ⟨fun x y => if x.l = [] then x else if y.l = [] then y else ofL ob (ob.mulAux x.l y.l)⟩

instance : Sub (Op ob) := ⟨fun x y => x + -y⟩

/-- The generator `D` of the algebra. -/
def gen (ob : OreBase K) : Op ob := ofL ob [0, 1]

/-- The image of a base-ring element in the algebra. -/
def cst (ob : OreBase K) (c : K) : Op ob := ofL ob [c]

@[simp] theorem cf_zero (n : Nat) : (0 : Op ob).cf n = 0 := rfl

@[simp] theorem cf_add (x y : Op ob) (n : Nat) : (x + y).cf n = x.cf n + y.cf n := by
  show (ofL ob (addL x.l y.l)).cf n = _
  simp [cf, ofL]

@[simp] theorem cf_neg (x : Op ob) (n : Nat) : (-x).cf n = -x.cf n := by
  show (ofL ob (negL x.l)).cf n = _
  simp [cf, ofL]

@[simp] theorem cf_sub (x y : Op ob) (n : Nat) : (x - y).cf n = x.cf n - y.cf n := by
  show (x + -y).cf n = _
  rw [cf_add, cf_neg]
  ring

@[simp] theorem cf_smul (c : K) (x : Op ob) (n : Nat) : (c • x).cf n = c * x.cf n := by
  show (ofL ob (smulL c x.l)).cf n = _
  simp [cf, ofL]

theorem l_zero : (0 : Op ob).l = [] := rfl

theorem zero_iff_l_nil {x : Op ob} : x = 0 ↔ x.l = [] :=
  ⟨fun h => by rw [h]; exact l_zero, fun h => eq_of_l_eq (by rw [h]; rfl)⟩

theorem cf_mulAux_sum (as b : List K) (n : Nat) :
    coeff (ob.mulAux as b) n =
      ∑ i ∈ Finset.range as.length, coeff as i * coeff ((ob.stepD)^[i] b) n := by
  induction as generalizing b with
  | nil => simp [OreBase.mulAux]
  | cons a as ih =>
    rw [OreBase.mulAux, coeff_addL, coeff_smulL, ih]
    rw [List.length_cons, Finset.sum_range_succ']
    simp [Function.iterate_succ_apply]
    ring

theorem cf_mulAux_sum_of_le (as b : List K) (n N : Nat) (hN : as.length ≤ N) :
    coeff (ob.mulAux as b) n =
      ∑ i ∈ Finset.range N, coeff as i * coeff ((ob.stepD)^[i] b) n := by
  rw [cf_mulAux_sum]
  apply Finset.sum_subset (Finset.range_subset.mpr hN)
  intro i _ hi
  rw [Finset.mem_range, not_lt] at hi
  rw [coeff_eq_zero_of_length_le hi, zero_mul]

theorem stepD_congr {b b' : List K} (h : ∀ m, coeff b m = coeff b' m) (n : Nat) :
    coeff (ob.stepD b) n = coeff (ob.stepD b') n := by
  cases n with
  | zero => simp [h 0]
  | succ n => simp [h n, h (n + 1)]

theorem iterD_congr (k : Nat) {b b' : List K} (h : ∀ m, coeff b m = coeff b' m) (n : Nat) :
    coeff ((ob.stepD)^[k] b) n = coeff ((ob.stepD)^[k] b') n := by
  induction k generalizing b b' with
  | zero => exact h n
  | succ k ih =>
    rw [Function.iterate_succ_apply, Function.iterate_succ_apply]
    exact ih (stepD_congr h)

theorem mulAux_left_congr {u u' : List K} (h : ∀ i, coeff u i = coeff u' i) (c : List K)
    (n : Nat) : coeff (ob.mulAux u c) n = coeff (ob.mulAux u' c) n := by
  rw [cf_mulAux_sum_of_le u c n (max u.length u'.length) (le_max_left _ _),
    cf_mulAux_sum_of_le u' c n (max u.length u'.length) (le_max_right _ _)]
  exact Finset.sum_congr rfl (fun i _ => by rw [h i])

theorem mulAux_right_congr (u : List K) {c c' : List K} (h : ∀ m, coeff c m = coeff c' m)
    (n : Nat) : coeff (ob.mulAux u c) n = coeff (ob.mulAux u c') n := by
  rw [cf_mulAux_sum, cf_mulAux_sum]
  exact Finset.sum_congr rfl (fun i _ => by rw [iterD_congr i h n])

theorem mulAux_left_addL (u v c : List K) (n : Nat) :
    coeff (ob.mulAux (addL u v) c) n = coeff (ob.mulAux u c) n + coeff (ob.mulAux v c) n := by
  have hlen : (addL u v).length ≤ max u.length v.length := by
    induction u generalizing v with
    | nil => simp [addL]
    | cons a as ih =>
      cases v with
      | nil => simp [addL]
      | cons b bs =>
        simp only [addL, List.length_cons]
        have := ih bs
        omega
  rw [cf_mulAux_sum_of_le _ c n (max u.length v.length) hlen,
    cf_mulAux_sum_of_le u c n (max u.length v.length) (le_max_left _ _),
    cf_mulAux_sum_of_le v c n (max u.length v.length) (le_max_right _ _),
    ← Finset.sum_add_distrib]
  exact Finset.sum_congr rfl (fun i _ => by rw [coeff_addL]; ring)

theorem mulAux_left_smulL (a : K) (u c : List K) (n : Nat) :
    coeff (ob.mulAux (smulL a u) c) n = a * coeff (ob.mulAux u c) n := by
  have hlen : (smulL a u).length ≤ u.length := by simp [smulL]
  rw [cf_mulAux_sum_of_le _ c n u.length hlen, cf_mulAux_sum, Finset.mul_sum]
  exact Finset.sum_congr rfl (fun i _ => by rw [coeff_smulL]; ring)

theorem stepD_addL (u v : List K) (n : Nat) :
    coeff (ob.stepD (addL u v)) n = coeff (ob.stepD u) n + coeff (ob.stepD v) n := by
  cases n with
  | zero => simp [ob.delta_add]
  | succ n => simp [ob.delta_add, ob.sigma_add]; ring

theorem stepD_smulL (c0 : K) (u : List K) (n : Nat) :
    coeff (ob.stepD (smulL c0 u)) n =
      ob.sigma c0 * coeff (ob.stepD u) n + ob.delta c0 * coeff u n := by
  cases n with
  | zero => simp [ob.delta_mul]
  | succ n => simp [ob.delta_mul, ob.sigma_mul]; ring

theorem mulAux_shiftL_left (u c : List K) (n : Nat) :
    coeff (ob.mulAux (shiftL u) c) n = coeff (ob.mulAux u (ob.stepD c)) n := by
  show coeff (ob.mulAux (0 :: u) c) n = _
  rw [OreBase.mulAux, coeff_addL, coeff_smulL]
  ring

theorem stepD_cons (b0 : K) (bs : List K) (n : Nat) :
    coeff (ob.stepD (b0 :: bs)) n =
      coeff (addL [ob.delta b0, ob.sigma b0] (shiftL (ob.stepD bs))) n := by
  cases n with
  | zero => simp
  | succ n =>
    cases n with
    | zero => simp
    | succ n => simp

theorem stepD_mulAux (b c : List K) (n : Nat) :
    coeff (ob.stepD (ob.mulAux b c)) n = coeff (ob.mulAux (ob.stepD b) c) n := by
  induction b generalizing c n with
  | nil =>
    have h1 : ∀ m, coeff (ob.mulAux ([] : List K) c) m = 0 := by
      intro m
      simp [OreBase.mulAux]
    have h2 : coeff (ob.stepD (ob.mulAux ([] : List K) c)) n = 0 := by
      cases n with
      | zero => simp [h1 0]
      | succ n => simp [h1 n, h1 (n + 1)]
    rw [h2]
    have h3 : ∀ m, coeff (ob.stepD ([] : List K)) m = 0 := by
      intro m
      cases m with
      | zero => simp
      | succ m => simp
    rw [@mulAux_left_congr K _ _ ob (ob.stepD ([] : List K)) [] h3 c n]
    simp [OreBase.mulAux]
  | cons b0 bs ih =>
    rw [OreBase.mulAux]
    calc coeff (ob.stepD (addL (smulL b0 c) (ob.mulAux bs (ob.stepD c)))) n
        = coeff (ob.stepD (smulL b0 c)) n +
            coeff (ob.stepD (ob.mulAux bs (ob.stepD c))) n := stepD_addL ..
      _ = (ob.sigma b0 * coeff (ob.stepD c) n + ob.delta b0 * coeff c n) +
            coeff (ob.mulAux (ob.stepD bs) (ob.stepD c)) n := by
            rw [stepD_smulL, ih]
      _ = coeff (ob.mulAux (ob.stepD (b0 :: bs)) c) n := by
            rw [mulAux_left_congr (stepD_cons b0 bs) c n, mulAux_left_addL]
            have e1 : ∀ m, coeff ([ob.delta b0, ob.sigma b0] : List K) m =
                coeff (addL (smulL (ob.delta b0) [1]) (smulL (ob.sigma b0) [0, 1])) m := by
              intro m
              cases m with
              | zero => simp [coeff, smulL, addL]
              | succ m =>
                cases m with
                | zero => simp [coeff, smulL, addL]
                | succ m => simp [coeff, smulL, addL]
            rw [mulAux_left_congr e1 c n, mulAux_left_addL, mulAux_left_smulL,
              mulAux_left_smulL, mulAux_shiftL_left]
            have e2 : ∀ m, coeff ([(1 : K)] : List K) m = coeff (smulL 1 [1] : List K) m := by
              intro m
              simp
            have h1 : coeff (ob.mulAux [(1 : K)] c) n = coeff c n := by
              rw [OreBase.mulAux, OreBase.mulAux, coeff_addL, coeff_smulL]
              simp
            have e3 : ∀ m, coeff ([(0 : K), 1] : List K) m = coeff (shiftL [1] : List K) m := by
              intro m
              cases m with
              | zero => simp
              | succ m => simp [coeff, shiftL]
            have h2 : coeff (ob.mulAux [(0 : K), 1] c) n = coeff (ob.stepD c) n := by
              rw [mulAux_left_congr e3 c n, mulAux_shiftL_left]
              rw [OreBase.mulAux, OreBase.mulAux, coeff_addL, coeff_smulL]
              simp
            rw [h1, h2]
            ring

theorem iterD_mulAux (k : Nat) (b c : List K) (n : Nat) :
    coeff ((ob.stepD)^[k] (ob.mulAux b c)) n =
      coeff (ob.mulAux ((ob.stepD)^[k] b) c) n := by
  induction k generalizing n with
  | zero => rfl
  | succ k ih =>
    rw [Function.iterate_succ_apply', stepD_congr ih n, stepD_mulAux,
      Function.iterate_succ_apply']

theorem mulAux_assoc (a b c : List K) (n : Nat) :
    coeff (ob.mulAux a (ob.mulAux b c)) n = coeff (ob.mulAux (ob.mulAux a b) c) n := by
  induction a generalizing b n with
  | nil => simp [OreBase.mulAux]
  | cons a0 as ih =>
    rw [OreBase.mulAux, OreBase.mulAux, coeff_addL, mulAux_left_addL, coeff_smulL,
      mulAux_left_smulL,
      mulAux_right_congr as (fun m => stepD_mulAux b c m) n,
      ih (ob.stepD b) n]

theorem zero_coeffs_stepD {b : List K} (h : ∀ m, coeff b m = 0) (n : Nat) :
    coeff (ob.stepD b) n = 0 := by
  cases n with
  | zero => simp [h 0]
  | succ n => simp [h n, h (n + 1)]

theorem zero_coeffs_iterD (k : Nat) {b : List K} (h : ∀ m, coeff b m = 0) (n : Nat) :
    coeff ((ob.stepD)^[k] b) n = 0 := by
  induction k generalizing b with
  | zero => exact h n
  | succ k ih =>
    rw [Function.iterate_succ_apply]
    exact ih (zero_coeffs_stepD h)

theorem mulAux_right_zero (as : List K) {b : List K} (h : ∀ m, coeff b m = 0) (n : Nat) :
    coeff (ob.mulAux as b) n = 0 := by
  rw [cf_mulAux_sum]
  apply Finset.sum_eq_zero
  intro i _
  rw [zero_coeffs_iterD i h n, mul_zero]

theorem iterD_addL (k : Nat) (u v : List K) (n : Nat) :
    coeff ((ob.stepD)^[k] (addL u v)) n =
      coeff ((ob.stepD)^[k] u) n + coeff ((ob.stepD)^[k] v) n := by
  induction k generalizing n with
  | zero => simp
  | succ k ih =>
    have h : ∀ m, coeff ((ob.stepD)^[k] (addL u v)) m =
        coeff (addL ((ob.stepD)^[k] u) ((ob.stepD)^[k] v)) m := by
      intro m
      rw [coeff_addL]
      exact ih m
    rw [Function.iterate_succ_apply', stepD_congr h n, stepD_addL,
      Function.iterate_succ_apply', Function.iterate_succ_apply']

theorem mulAux_right_addL (u v w : List K) (n : Nat) :
    coeff (ob.mulAux u (addL v w)) n =
      coeff (ob.mulAux u v) n + coeff (ob.mulAux u w) n := by
  rw [cf_mulAux_sum, cf_mulAux_sum, cf_mulAux_sum, ← Finset.sum_add_distrib]
  exact Finset.sum_congr rfl (fun i _ => by rw [iterD_addL]; ring)

theorem cf_mul (x y : Op ob) (n : Nat) : (x * y).cf n = coeff (ob.mulAux x.l y.l) n := by
  show (if x.l = [] then x else if y.l = [] then y else ofL ob (ob.mulAux x.l y.l)).cf n = _
  by_cases hx : x.l = []
  · rw [if_pos hx, cf, hx]
    simp [OreBase.mulAux]
  · rw [if_neg hx]
    by_cases hy : y.l = []
    · rw [if_pos hy, cf, hy]
      rw [mulAux_right_zero x.l (fun m => by rw [coeff_nil]) n]
      exact coeff_nil n
    · rw [if_neg hy]
      simp [cf, ofL]

theorem l_one : (1 : Op ob).l = [1] := by
  show (ofL ob [1]).l = [1]
  simp [ofL, trim]

@[simp] theorem cf_one (n : Nat) : (1 : Op ob).cf n = if n = 0 then 1 else 0 := by
  rw [cf, l_one]
  cases n with
  | zero => simp
  | succ n => simp [coeff]

instance : AddCommGroup (Op ob) where
  nsmul := nsmulRec
  zsmul := zsmulRec
  add_assoc x y z := extc (fun n => by simp; ring)
  zero_add x := extc (fun n => by simp)
  add_zero x := extc (fun n => by simp)
  add_comm x y := extc (fun n => by simp; ring)
  neg_add_cancel x := extc (fun n => by simp)
  sub_eq_add_neg x y := extc (fun n => by simp; ring)

theorem iterD_one (k : Nat) (n : Nat) :
    coeff ((ob.stepD)^[k] [1]) n = coeff (OreBase.monomialL 1 k) n := by
  induction k generalizing n with
  | zero => simp [OreBase.monomialL]
  | succ k ih =>
    rw [Function.iterate_succ_apply', stepD_congr ih n]
    cases n with
    | zero =>
      rw [ob.coeff_stepD_zero, OreBase.coeff_monomialL]
      cases k with
      | zero => simp
      | succ k => simp
    | succ n =>
      rw [ob.coeff_stepD_succ, OreBase.coeff_monomialL, OreBase.coeff_monomialL,
        OreBase.coeff_monomialL]
      by_cases h : n = k
      · simp [h, ob.sigma_one]
      · have h2 : ¬(n + 1 = k + 1) := by omega
        by_cases h3 : n + 1 = k
        · simp [h, h2, h3]
        · simp [h, h2, h3]

instance : Ring (Op ob) :=
  { (inferInstance : AddCommGroup (Op ob)) with
    left_distrib := fun x y z => by
      apply extc
      intro n
      rw [cf_mul, cf_add, cf_mul, cf_mul]
      have h : ∀ m, coeff (y + z).l m = coeff (addL y.l z.l) m := fun m => by
        rw [coeff_addL]
        exact cf_add y z m
      rw [mulAux_right_congr x.l h n]
      exact mulAux_right_addL x.l y.l z.l n
    right_distrib := fun x y z => by
      apply extc
      intro n
      rw [cf_mul, cf_add, cf_mul, cf_mul]
      have h : ∀ m, coeff (x + y).l m = coeff (addL x.l y.l) m := fun m => by
        rw [coeff_addL]
        exact cf_add x y m
      rw [mulAux_left_congr h z.l n]
      exact mulAux_left_addL x.l y.l z.l n
    zero_mul := fun x => by
      show (if ([] : List K) = [] then (0 : Op ob) else _) = 0
      rw [if_pos rfl]
    mul_zero := fun x => by
      show (if x.l = [] then x else if ([] : List K) = [] then (0 : Op ob) else _) = 0
      by_cases hx : x.l = []
      · rw [if_pos hx]
        exact zero_iff_l_nil.mpr hx
      · rw [if_neg hx, if_pos rfl]
    mul_assoc := fun x y z => by
      apply extc
      intro n
      rw [cf_mul, cf_mul]
      have h1 : ∀ m, coeff (x * y).l m = coeff (ob.mulAux x.l y.l) m := fun m =>
        cf_mul x y m
      have h2 : ∀ m, coeff (y * z).l m = coeff (ob.mulAux y.l z.l) m := fun m =>
        cf_mul y z m
      rw [mulAux_left_congr h1 z.l n, mulAux_right_congr x.l h2 n]
      exact (mulAux_assoc x.l y.l z.l n).symm
    one_mul := fun x => by
      apply extc
      intro n
      rw [cf_mul, l_one, OreBase.mulAux, OreBase.mulAux, coeff_addL, coeff_smulL]
      simp [cf]
    mul_one := fun x => by
      apply extc
      intro n
      rw [cf_mul, l_one, cf_mulAux_sum]
      have hc : ∀ i ∈ Finset.range x.l.length,
          coeff x.l i * coeff ((ob.stepD)^[i] [1]) n =
            coeff x.l i * (if n = i then 1 else 0) := by
        intro i _
        rw [iterD_one i n, OreBase.coeff_monomialL]
      rw [Finset.sum_congr rfl hc]
      by_cases hn : n < x.l.length
      · rw [Finset.sum_eq_single n]
        · simp [cf]
        · intro i _ hi
          simp [Ne.symm hi]
        · intro h
          exact absurd (Finset.mem_range.mpr hn) h
      · rw [Finset.sum_eq_zero, cf, coeff_eq_zero_of_length_le (le_of_not_lt hn)]
        intro i hi
        rw [Finset.mem_range] at hi
        have hni : ¬(n = i) := by omega
        simp [hni] }

/-- `order()`: the degree of the underlying polynomial, `-1` for the zero
operator. -/
def ord (x : Op ob) : ℤ := (x.l.length : ℤ) - 1

/-- `leading_coefficient()`. -/
def lc (x : Op ob) : K := coeff x.l (x.l.length - 1)

/-- `constant_coefficient()`. -/
def cc (x : Op ob) : K := coeff x.l 0

theorem ord_zero_op : (0 : Op ob).ord = -1 := rfl

theorem ne_zero_iff_l_ne {x : Op ob} : x ≠ 0 ↔ x.l ≠ [] := by
  constructor
  · intro h hl
    exact h (zero_iff_l_nil.mpr hl)
  · intro h hx
    exact h (zero_iff_l_nil.mp hx)

theorem length_pos_of_ne {x : Op ob} (h : x ≠ 0) : 0 < x.l.length :=
  List.length_pos.mpr (ne_zero_iff_l_ne.mp h)

theorem lc_ne_zero {x : Op ob} (h : x ≠ 0) : x.lc ≠ 0 :=
  getLast?_ne_getD x.getLast?_l (ne_zero_iff_l_ne.mp h)

theorem ord_lt_iff {x y : Op ob} : x.ord < y.ord ↔ x.l.length < y.l.length := by
  unfold ord
  omega

theorem ord_le_iff {x y : Op ob} : x.ord ≤ y.ord ↔ x.l.length ≤ y.l.length := by
  unfold ord
  omega

theorem deg_le_iff {x : Op ob} {n : Nat} :
    x.l.length ≤ n ↔ ∀ m, n ≤ m → x.cf m = 0 := by
  rw [← x.tr, length_trim_le_iff]
  constructor
  · intro h m hm
    rw [cf, ← x.tr]
    have : coeff (trim x.l) m = coeff x.l m := coeff_trim x.l m
    rw [this]
    exact h m hm
  · intro h m hm
    have := h m hm
    rw [cf] at this
    exact this

theorem deg_eq_of {x : Op ob} {n : Nat} (h1 : ∀ m, n + 1 ≤ m → x.cf m = 0)
    (h2 : x.cf n ≠ 0) : x.l.length = n + 1 := by
  have hle : x.l.length ≤ n + 1 := deg_le_iff.mpr h1
  have hlt : n < x.l.length := lt_length_of_coeff_ne_zero h2
  omega

theorem cf_top {x : Op ob} : x.cf (x.l.length - 1) = x.lc := rfl

theorem cf_eq_zero_of_le {x : Op ob} {m : Nat} (h : x.l.length ≤ m) : x.cf m = 0 :=
  coeff_eq_zero_of_length_le h

/-- `c * D^d` as an operator. -/
def monom (ob : OreBase K) (c : K) (d : Nat) : Op ob := ofL ob (OreBase.monomialL c d)

@[simp] theorem cf_monom (c : K) (d n : Nat) :
    (monom ob c d).cf n = if n = d then c else 0 := by
  rw [monom, cf_ofL, OreBase.coeff_monomialL]

theorem deg_monom {c : K} (h : c ≠ 0) (d : Nat) : (monom ob c d).l.length = d + 1 :=
  deg_eq_of (fun m hm => by simp [cf_monom]; omega) (by simp [h])

theorem monom_ne_zero {c : K} (h : c ≠ 0) (d : Nat) : monom ob c d ≠ 0 := by
  intro h0
  have := congrArg (fun z => Op.cf z d) h0
  simp [h] at this

theorem lc_monom {c : K} (h : c ≠ 0) (d : Nat) : (monom ob c d).lc = c := by
  rw [lc.eq_1, deg_monom h]
  have : (monom ob c d).cf d = c := by simp
  simpa [cf] using this

theorem deg_mul {x y : Op ob} (hx : x ≠ 0) (hy : y ≠ 0) :
    (x * y).l.length = x.l.length + y.l.length - 1 := by
  obtain ⟨a, as, hxl⟩ : ∃ a as, x.l = a :: as := by
    cases hl : x.l with
    | nil => exact absurd hl (ne_zero_iff_l_ne.mp hx)
    | cons a as => exact ⟨a, as, rfl⟩
  have hylen : 0 < y.l.length := length_pos_of_ne hy
  have hdb : DegLt y.l ((y.l.length - 1) + 1) := by
    have : (y.l.length - 1) + 1 = y.l.length := by omega
    rw [this]
    exact fun m hm => cf_eq_zero_of_le hm
  have htop : (x * y).cf (as.length + (y.l.length - 1)) =
      coeff x.l as.length * (ob.sigma)^[as.length] (y.lc) := by
    rw [cf_mul, hxl, ob.coeff_mulAux_top as a hdb, ← hxl]
    rfl
  have hlc : coeff x.l as.length = x.lc := by
    rw [lc, hxl]
    simp
  have hne : (x * y).cf (as.length + (y.l.length - 1)) ≠ 0 := by
    rw [htop, hlc]
    exact mul_ne_zero (lc_ne_zero hx) (ob.sigma_iter_ne_zero (lc_ne_zero hy) _)
  have hbound : ∀ m, (as.length + (y.l.length - 1)) + 1 ≤ m → (x * y).cf m = 0 := by
    intro m hm
    rw [cf_mul]
    have := @OreBase.degLt_mulAux K _ _ ob x.l y.l y.l.length
      (fun k hk => cf_eq_zero_of_le hk)
    apply this
    rw [hxl]
    simp only [List.length_cons]
    omega
  have := deg_eq_of hbound hne
  rw [this, hxl]
  simp only [List.length_cons]
  omega

theorem lc_mul {x y : Op ob} (hx : x ≠ 0) (hy : y ≠ 0) :
    (x * y).lc = x.lc * (ob.sigma)^[x.l.length - 1] y.lc := by
  obtain ⟨a, as, hxl⟩ : ∃ a as, x.l = a :: as := by
    cases hl : x.l with
    | nil => exact absurd hl (ne_zero_iff_l_ne.mp hx)
    | cons a as => exact ⟨a, as, rfl⟩
  have hylen : 0 < y.l.length := length_pos_of_ne hy
  have hdb : DegLt y.l ((y.l.length - 1) + 1) := by
    have : (y.l.length - 1) + 1 = y.l.length := by omega
    rw [this]
    exact fun m hm => cf_eq_zero_of_le hm
  have htop : (x * y).cf (as.length + (y.l.length - 1)) =
      coeff x.l as.length * (ob.sigma)^[as.length] (y.lc) := by
    rw [cf_mul, hxl, ob.coeff_mulAux_top as a hdb, ← hxl]
    rfl
  have hlc : coeff x.l as.length = x.lc := by
    rw [lc, hxl]
    simp
  rw [lc.eq_1, deg_mul hx hy]
  have e1 : x.l.length + y.l.length - 1 - 1 = as.length + (y.l.length - 1) := by
    rw [hxl]
    simp only [List.length_cons]
    omega
  have e2 : x.l.length - 1 = as.length := by
    rw [hxl]
    simp
  rw [e1, e2]
  rw [cf, hlc] at htop
  exact htop

theorem mul_ne_zero_op {x y : Op ob} (hx : x ≠ 0) (hy : y ≠ 0) : x * y ≠ 0 := by
  intro h0
  have := lc_mul hx hy
  rw [h0] at this
  have hz : (0 : Op ob).lc = 0 := rfl
  rw [hz] at this
  exact mul_ne_zero (lc_ne_zero hx) (ob.sigma_iter_ne_zero (lc_ne_zero hy) _) this.symm

theorem ord_mul {x y : Op ob} (hx : x ≠ 0) (hy : y ≠ 0) :
    (x * y).ord = x.ord + y.ord := by
  unfold ord
  rw [deg_mul hx hy]
  have h1 := length_pos_of_ne hx
  have h2 := length_pos_of_ne hy
  omega

theorem smul_mul (c : K) (x y : Op ob) : (c • x) * y = c • (x * y) := by
  apply extc
  intro n
  have h : ∀ m, coeff (c • x).l m = coeff (smulL c x.l) m := fun m => by
    rw [coeff_smulL]
    exact cf_smul c x m
  rw [cf_smul, cf_mul, cf_mul, mulAux_left_congr h y.l n]
  exact mulAux_left_smulL c x.l y.l n

theorem deg_sub_le {x y : Op ob} {n : Nat} (hx : x.l.length ≤ n) (hy : y.l.length ≤ n) :
    (x - y).l.length ≤ n := by
  rw [deg_le_iff]
  intro m hm
  rw [cf_sub, cf_eq_zero_of_le (le_trans hx hm), cf_eq_zero_of_le (le_trans hy hm), sub_zero]

/-- The coefficient by which `quo_rem`'s loop cancels the head of the current
remainder: `op(p.leading_coefficient(), qlcs[orddiff])`. -/
def qrC (ob : OreBase K) (ex : Bool) (p B : Op ob) : K :=
  let d : Nat := (p.ord - B.ord).toNat
  if ex then p.lc / (ob.sigma)^[d] B.lc else ob.fdiv p.lc ((ob.sigma)^[d] B.lc)

/-- The monomial `cfquo = op(...) * D**orddiff` subtracted by one step of the
division loop. -/
def qrMono (ob : OreBase K) (ex : Bool) (p B : Op ob) : Op ob :=
  monom ob (qrC ob ex p B) (p.ord - B.ord).toNat

/-- In exact mode (true division over the fraction field), one cancellation
step strictly reduces the order of the remainder: the stagnation test of the
source can never succeed there. -/
theorem exact_step_reduces {p B : Op ob} (hB : B ≠ 0) (hord : ¬p.ord < B.ord) :
    (p - qrMono ob true p B * B).ord < p.ord := by
  have hp : p ≠ 0 := by
    intro h0
    rw [h0] at hord
    have h1 : (0 : Op ob).ord = -1 := rfl
    rw [h1] at hord
    have h2 : (0 : ℤ) ≤ B.ord := by
      have := length_pos_of_ne hB
      unfold ord
      omega
    omega
  have hlen : B.l.length ≤ p.l.length := by
    rw [← ord_le_iff]
    omega
  have hBpos := length_pos_of_ne hB
  have hppos := length_pos_of_ne hp
  have hd : (p.ord - B.ord).toNat = p.l.length - B.l.length := by
    unfold ord
    omega
  set d : Nat := (p.ord - B.ord).toNat with hdd
  have hc : qrC ob true p B = p.lc / (ob.sigma)^[d] B.lc := rfl
  have hsig : (ob.sigma)^[d] B.lc ≠ 0 := ob.sigma_iter_ne_zero (lc_ne_zero hB) d
  have hcne : qrC ob true p B ≠ 0 := by
    rw [hc]
    exact div_ne_zero (lc_ne_zero hp) hsig
  set c := qrC ob true p B with hcc
  have hm_ne : monom ob c d ≠ 0 := monom_ne_zero hcne d
  have hdm : (monom ob c d).l.length = d + 1 := deg_monom hcne d
  have hdp : (monom ob c d * B).l.length = p.l.length := by
    rw [deg_mul hm_ne hB, hdm, hd]
    omega
  have hlcp : (monom ob c d * B).lc = p.lc := by
    rw [lc_mul hm_ne hB, lc_monom hcne, hdm]
    simp only [Nat.add_sub_cancel]
    rw [hc, div_mul_cancel₀ _ hsig]
  have hcancel : ∀ m, p.l.length - 1 ≤ m → (p - monom ob c d * B).cf m = 0 := by
    intro m hm
    rw [cf_sub]
    rcases eq_or_lt_of_le hm with he | hlt
    · have h1 : p.cf (p.l.length - 1) = p.lc := cf_top
      have h2 : (monom ob c d * B).cf (p.l.length - 1) = p.lc := by
        have : (monom ob c d * B).cf ((monom ob c d * B).l.length - 1) =
            (monom ob c d * B).lc := cf_top
        rw [hdp] at this
        rw [this, hlcp]
      rw [← he, h1, h2, sub_self]
    · have hge : p.l.length ≤ m := by omega
      rw [cf_eq_zero_of_le hge, cf_eq_zero_of_le (by rw [hdp]; exact hge), sub_zero]
  have hdeg : (p - monom ob c d * B).l.length ≤ p.l.length - 1 :=
    deg_le_iff.mpr hcancel
  show (p - monom ob c d * B).ord < p.ord
  unfold ord
  omega

/-- The while-loop of `quo_rem` (source lines 789-798).  The state is the
current remainder `p`, the accumulated quotient `quo` and the current
coefficient division (`ex = true`: the `/` of the (fraction) field;
`ex = false`: the base ring's `//`).  `A` and `B` are the original operands;
when the stagnation test `p.order() == currentOrder` succeeds the loop
restarts from them with true division (`p = self; q = other; op = /`),
keeping the quotient accumulated so far, exactly as the source does.  `fuel`
only bounds the iteration count; `quoRem` supplies enough fuel for the loop
to always exit through the `orddiff >= 0` test. -/
def qrLoop (ob : OreBase K) (A B : Op ob) :
    Nat → Bool → Op ob → Op ob → Op ob × Op ob
  | 0, _, p, quo => (quo, p)
  | fuel + 1, ex, p, quo =>
    if p.ord < B.ord then (quo, p)
    else
      let cfquo := qrMono ob ex p B
      let quo2 := quo + cfquo
      let p2 := p - cfquo * B
      if p2.ord = p.ord then qrLoop ob A B fuel true A quo2
      else qrLoop ob A B fuel ex p2 quo2

/-- `quo_rem` (source lines 763-799).  `none` models the
`ZeroDivisionError` raised for a zero divisor.  In exact mode
(`fractionFree = false`) over a non-field base ring the source promotes the
operands to the fraction-field algebra before the loop; in this model the
coefficients already live in the fraction field `K`, so the promotion
amounts to running the loop with true division. -/
def quoRem (A B : Op ob) (fractionFree : Bool) : Option (Op ob × Op ob) :=
  if B = 0 then none
  else if A.ord < B.ord then some (0, A)
  else some (qrLoop ob A B (2 * A.l.length + 2) (!fractionFree) A 0)

theorem qrLoop_exact_correct {A B : Op ob} (hB : B ≠ 0) (fuel : Nat) :
    ∀ p quo : Op ob, p.l.length < fuel →
      ∃ Q R, qrLoop ob A B fuel true p quo = (Q, R) ∧
        Q * B + R = quo * B + p ∧ (R = 0 ∨ R.ord < B.ord) := by
  induction fuel with
  | zero => intro p quo h; omega
  | succ fuel ih =>
    intro p quo hfuel
    by_cases hord : p.ord < B.ord
    · refine ⟨quo, p, ?_, rfl, Or.inr hord⟩
      rw [qrLoop, if_pos hord]
    · have hred := exact_step_reduces hB hord
      have hne : ¬((p - qrMono ob true p B * B).ord = p.ord) := by omega
      have hlen : (p - qrMono ob true p B * B).l.length < p.l.length := by
        have := ord_lt_iff.mp hred
        exact this
      obtain ⟨Q, R, hrun, hval, hR⟩ :=
        ih (p - qrMono ob true p B * B) (quo + qrMono ob true p B) (by omega)
      refine ⟨Q, R, ?_, ?_, hR⟩
      · rw [qrLoop, if_neg hord, if_neg hne]
        exact hrun
      · rw [hval, add_mul]
        abel

/-- Claim C1.  For every `A` and every nonzero `B`, `quo_rem(A, B)` (exact
mode, the public entry) returns `(Q, R)` with `Q*B + R == A` and `R == 0` or
`order(R) < order(B)`; equivalently `(A // B)*B + (A % B) == A`. -/
theorem quoRem_correct (A B : Op ob) (hB : B ≠ 0) :
    ∃ Q R, quoRem A B false = some (Q, R) ∧
      Q * B + R = A ∧ (R = 0 ∨ R.ord < B.ord) := by
  by_cases hord : A.ord < B.ord
  · refine ⟨0, A, ?_, by rw [zero_mul, zero_add], Or.inr hord⟩
    rw [quoRem, if_neg hB, if_pos hord]
  · obtain ⟨Q, R, hrun, hval, hR⟩ :=
      qrLoop_exact_correct (A := A) hB (2 * A.l.length + 2) A 0 (by omega)
    refine ⟨Q, R, ?_, ?_, hR⟩
    · rw [quoRem, if_neg hB, if_neg hord]
      rw [Bool.not_false]
      rw [hrun]
    · rw [hval, zero_mul, zero_add]

theorem quoRem_unique {A B Q R Q2 R2 : Op ob} (hB : B ≠ 0)
    (h1 : Q * B + R = A) (hR : R = 0 ∨ R.ord < B.ord)
    (h2 : Q2 * B + R2 = A) (hR2 : R2 = 0 ∨ R2.ord < B.ord) : Q = Q2 ∧ R = R2 := by
  have hordB : (0 : ℤ) ≤ B.ord := by
    have := length_pos_of_ne hB
    unfold Op.ord
    omega
  have hRB : R.ord < B.ord := by
    rcases hR with h | h
    · rw [h]
      show (-1 : ℤ) < B.ord
      omega
    · exact h
  have hR2B : R2.ord < B.ord := by
    rcases hR2 with h | h
    · rw [h]
      show (-1 : ℤ) < B.ord
      omega
    · exact h
  have hQ : Q = Q2 := by
    by_contra hne
    have hsub : (Q - Q2) * B = R2 - R := by
      have := congrArg (fun z => z - (Q2 * B + R)) (h1.trans h2.symm)
      simp only at this
      calc (Q - Q2) * B = (Q * B + R) - (Q2 * B + R) := by rw [sub_mul]; abel
        _ = (Q2 * B + R2) - (Q2 * B + R) := by rw [h1, h2]
        _ = R2 - R := by abel
    have hQne : Q - Q2 ≠ 0 := sub_ne_zero_of_ne hne
    have hprod : ((Q - Q2) * B).ord = (Q - Q2).ord + B.ord := ord_mul hQne hB
    have hordQ : (0 : ℤ) ≤ (Q - Q2).ord := by
      have := length_pos_of_ne hQne
      unfold Op.ord
      omega
    have hsubord : (R2 - R).ord < B.ord := by
      have hd : (R2 - R).l.length ≤ max R2.l.length R.l.length :=
        deg_sub_le (le_max_left _ _) (le_max_right _ _)
      have hr1 : (R.l.length : ℤ) - 1 < B.ord := hRB
      have hr2 : (R2.l.length : ℤ) - 1 < B.ord := hR2B
      unfold Op.ord
      unfold Op.ord at hr1 hr2
      omega
    rw [hsub] at hprod
    omega
  refine ⟨hQ, ?_⟩
  have : Q * B + R = Q * B + R2 := by
    rw [h1]
    rw [hQ] at h1 ⊢
    exact h2.symm
  exact add_left_cancel this

/-- Claim C8.  `quo_rem(A, 0)` raises `ZeroDivisionError` (modelled by
`none`), and for nonzero `B` with `order(A) < order(B)` the division
short-circuits to `(0, A)`. -/
theorem quoRem_zero_divisor_and_short (A B : Op ob) (ff : Bool) :
    quoRem A (0 : Op ob) ff = none ∧
      (B ≠ 0 → A.ord < B.ord → quoRem A B ff = some (0, A)) := by
  constructor
  · rw [quoRem, if_pos rfl]
  · intro hB hord
    rw [quoRem, if_neg hB, if_pos hord]

/-- Claim C5.  Structure of the stagnation/restart branch of `quo_rem`
(source lines 794-797) for a non-field base ring: (i) in exact mode the
operands are promoted to the fraction field, where a cancellation step
always strictly reduces the order of the current remainder, so the
stagnation test never succeeds there; (ii) whenever a cancellation step
does fail to reduce the order (which can only happen with the base ring's
fraction-free division `//`), the loop continues as a restart from the
original operands `(self, other)` with true division over the fraction
field, and (iii) that restarted run completes, returning a remainder that
is zero or of order less than `order(B)`. -/
theorem quoRem_stagnation_restart (A B p quo : Op ob) (fuel : Nat)
    (hnf : ob.isField = false) (hB : B ≠ 0) (hord : ¬p.ord < B.ord)
    (hstag : (p - qrMono ob false p B * B).ord = p.ord) :
    (p - qrMono ob true p B * B).ord < p.ord ∧
      qrLoop ob A B (fuel + 1) false p quo =
        qrLoop ob A B fuel true A (quo + qrMono ob false p B) ∧
      (A.l.length < fuel →
        ∃ Q R, qrLoop ob A B fuel true A (quo + qrMono ob false p B) = (Q, R) ∧
          (R = 0 ∨ R.ord < B.ord)) := by
  refine ⟨exact_step_reduces hB hord, ?_, ?_⟩
  · rw [qrLoop, if_neg hord, if_pos hstag]
  · intro hfuel
    obtain ⟨Q, R, hrun, _, hR⟩ :=
      qrLoop_exact_correct (A := A) hB fuel A (quo + qrMono ob false p B) hfuel
    exact ⟨Q, R, hrun, hR⟩

/-- A concrete algebra over the field `QQ`, `sigma = id`, `delta = 0`
(the commutative specialisation, e.g. the algebra `QQ<D>` with trivial
twist), used for witnesses. -/
def QB : OreBase ℚ where
  sigma := id
  sigmaInv := id
  delta := fun _ => 0
  isField := true
  fdiv := fun a b => a / b
  bgcd := fun _ _ => 1
  denomLcm := fun _ => 1
  hasGcd := true
  bterms := fun _ => 1
  bkey := fun _ => 0
  bisUnit := fun c => !decide (c = 0)
  bisBottom := fun _ => true
  blc := id
  btower := 1
  sigma_add := fun _ _ => rfl
  sigma_mul := fun _ _ => rfl
  sigma_one := rfl
  sigmaInv_sigma := fun _ => rfl
  sigma_sigmaInv := fun _ => rfl
  delta_add := fun _ _ => by simp
  delta_mul := fun _ _ => by simp
  denomLcm_ne_zero := fun _ => one_ne_zero
  bisUnit_field := fun _ _ => rfl

/-- A concrete algebra whose base ring is `ZZ` (not a field), carried inside
its fraction field `QQ`: `sigma = id` and `delta = 0` are the only ring
automorphism / derivation of `ZZ`, `//` is integer floor division, and the
fraction field is `QQ`. -/
def ZB : OreBase ℚ where
  sigma := id
  sigmaInv := id
  delta := fun _ => 0
  isField := false
  fdiv := fun a b => ((⌊a / b⌋ : ℤ) : ℚ)
  bgcd := fun a b => ((Int.gcd ⌊a⌋ ⌊b⌋ : ℤ) : ℚ)
  denomLcm := fun _ => 1
  hasGcd := true
  bterms := fun _ => 1
  bkey := fun _ => 0
  bisUnit := fun c => decide (c = 1 ∨ c = -1)
  bisBottom := fun _ => true
  blc := id
  btower := 1
  sigma_add := fun _ _ => rfl
  sigma_mul := fun _ _ => rfl
  sigma_one := rfl
  sigmaInv_sigma := fun _ => rfl
  sigma_sigmaInv := fun _ => rfl
  delta_add := fun _ _ => by simp
  delta_mul := fun _ _ => by simp
  denomLcm_ne_zero := fun _ => one_ne_zero
  bisUnit_field := fun h => nomatch h

/-- `sigma.factorial(a, n) = a * sigma(a) * ... * sigma^(n-1)(a)`. -/
def sigmaFac (ob : OreBase K) (a : K) : Nat → K
  | 0 => 1
  | n + 1 => sigmaFac ob a n * (ob.sigma)^[n] a

/-- `sigma(a, k)` with an integer power: `sigma^k`, negative `k` meaning the
inverse automorphism. -/
def sigmaZ (ob : OreBase K) (k : ℤ) (a : K) : K :=
  if 0 ≤ k then (ob.sigma)^[k.toNat] a else (ob.sigmaInv)^[(-k).toNat] a

/-- One entry of the auxiliary stack `additional` threaded between PRS
steps: a base-ring scalar or an order.  The stack top is the list head
(Python `pop`/`extend` act on the tail; the model keeps the reversed list). -/
inductive Aux (K : Type) where
  | sc : K → Aux K
  | iv : ℤ → Aux K
deriving DecidableEq

/-- Result of one reduction step of a remainder-sequence strategy:
`(r2, q, alpha, beta, ok)` with `beta * r2[1] = alpha * r[0] - q * r[1]`
when the step applies (`ok`). -/
structure StepRes {K : Type} [Field K] [DecidableEq K] (ob : OreBase K) where
  r2 : Op ob × Op ob
  q : Op ob
  alpha : K
  beta : K
  ok : Bool

instance : DecidableEq (StepRes ob) := fun x y =>
  if h : x.r2 = y.r2 ∧ x.q = y.q ∧ x.alpha = y.alpha ∧ x.beta = y.beta ∧ x.ok = y.ok then
    isTrue (by
      obtain ⟨h1, h2, h3, h4, h5⟩ := h
      cases x
      cases y
      simp only at h1 h2 h3 h4 h5
      rw [h1, h2, h3, h4, h5])
  else
    isFalse (fun he => h (by rw [he]; exact ⟨rfl, rfl, rfl, rfl, rfl⟩))

/-- Stable insertion of an element into a list sorted by a natural-number
key (the building block of Python's stable `list.sort`). -/
def insertByKey (key : K → Nat) (p : K) : List K → List K
  | [] => [p]
  | q :: t => if key p ≤ key q then p :: q :: t else q :: insertByKey key p t

/-- `coeffs.sort(key=...)` (source lines 456-461): stable sort by key. -/
def sortByKey (key : K → Nat) : List K → List K
  | [] => []
  | p :: t => insertByKey key p (sortByKey key t)

/-- The library `gcd` over a list of base-ring elements (`gcd(coeffs)`,
source line 463): the left fold of the base ring's pair gcd starting from
zero, with the library's early exit once the running gcd is one. -/
def gcdFold (ob : OreBase K) (l : List K) : K :=
  l.foldl (fun g p => if g = 1 then g else ob.bgcd g p) 0

/-- `sum(R(c0*i + c1)*coeffs[i] for i in xrange(len(coeffs)))`: the two
fixed "random" linear combinations of `content` (source lines 445-446) are
`randComb 2 3` and `randComb 3 (-1)`. -/
def randComb (c0 c1 : ℤ) (l : List K) : K :=
  (List.range l.length).foldl
    (fun (s : K) (i : Nat) => s + ((c0 * (i : ℤ) + c1 : ℤ) : K) * l.getD i 0) 0

/-- `content(proof)` (source lines 402-465): 1 for the zero operator; over a
field base ring, the leading coefficient; over a non-field base ring, the
single nonzero coefficient when there is only one, and otherwise the code of
the `try` block: the two fixed linear combinations `a`, `b` of the nonzero
coefficients, their base-ring gcd `c` (`hasGcd = false` models a base ring
whose gcd computation raises: the inner `except` then sets `c = 0` and the
outer one degrades the whole content to 1), the `proof=False` shortcut
returning `c` when the coefficients carry more than 30 base-coefficient
terms in total, and otherwise the library gcd of the nonzero coefficients
with `c` appended, sorted by the base ring's key. -/
def content (pf : Bool) (x : Op ob) : K :=
  if x = 0 then 1
  else if ob.isField then x.lc
  else
    let coeffs := x.l.filter (fun c => decide (c ≠ 0))
    if coeffs.length = 1 then coeffs.getD 0 0
    else
      let c := if ob.hasGcd then
        ob.bgcd (randComb 2 3 coeffs) (randComb 3 (-1) coeffs) else 0
      if pf = false ∧ c ≠ 0 ∧ 30 < (coeffs.map ob.bterms).sum then c
      else if ob.hasGcd then gcdFold ob (sortByKey ob.bkey (coeffs ++ [c]))
      else 1

/-- `primitive_part(proof)` (source lines 467-492): divide from the left by
the content (`/` over a field, `//` otherwise; `map_coefficients` touches
only the nonzero coefficients). -/
def primitivePart (pf : Bool) (x : Op ob) : Op ob :=
  let c := content pf x
  if c = 1 then x
  else if ob.isField then ofL ob (x.l.map (fun p => if p = 0 then 0 else p / c))
  else ofL ob (x.l.map (fun p => if p = 0 then 0 else ob.fdiv p c))

/-- `map_coefficients(lambda p: p // beta)` as used by the fraction-free
strategies (the map is applied to the nonzero coefficients). -/
def mapFdiv (x : Op ob) (beta : K) : Op ob :=
  ofL ob (x.l.map (fun p => if p = 0 then 0 else ob.fdiv p beta))

/-- `__classicPRS__`: one step of the classic polynomial remainder sequence,
plain `quo_rem`, `alpha = beta = 1`. -/
def classicPRS (r : Op ob × Op ob) (additional : List (Aux K)) :
    Option (StepRes ob × List (Aux K)) :=
  (quoRem r.1 r.2 false).map
    (fun newRem => (⟨(r.2, newRem.2), newRem.1, 1, 1, true⟩, additional))

/-- `__monicPRS__`: like classic but the remainder is replaced by its
primitive part. -/
def monicPRS (r : Op ob × Op ob) (additional : List (Aux K)) :
    Option (StepRes ob × List (Aux K)) :=
  (quoRem r.1 r.2 false).map
    (fun newRem => (⟨(r.2, primitivePart true newRem.2), newRem.1, 1, 1, true⟩, additional))

/-- `__primitivePRS__`: fraction-free division after scaling by
`alpha = sigma.factorial(r[1].lc, orddiff+1)`, then removal of the content
`beta` of the remainder. -/
def primitivePRS (r : Op ob × Op ob) (additional : List (Aux K)) :
    Option (StepRes ob × List (Aux K)) :=
  match quoRem (sigmaFac ob r.2.lc (r.1.ord - r.2.ord + 1).toNat • r.1) r.2 true with
  | none => none
  | some newRem =>
    some (⟨(r.2, mapFdiv newRem.2 (content true newRem.2)), newRem.1,
      sigmaFac ob r.2.lc (r.1.ord - r.2.ord + 1).toNat, content true newRem.2, true⟩,
      additional)

/-- `__improvedPRS__`: tracks `sigma`-shifted "essential parts" of the
leading coefficients in the auxiliary stack; the step reports `ok = false`
(and the driver falls back to `primitive`) when the tracked essential part
no longer divides the leading coefficient (`k == 0`). -/
def improvedPRS (r : Op ob × Op ob) (additional : List (Aux K)) :
    Option (StepRes ob × List (Aux K)) :=
  let d0 := r.1.ord
  let d1 := r.2.ord
  let orddiff : ℤ := d0 - d1
  match additional with
  | [] =>
    let essentialPart := ob.bgcd (sigmaZ ob (-orddiff) r.1.lc) r.2.lc
    let phi : K := 1
    let beta := (-1 : K) ^ (orddiff + 1).toNat * sigmaFac ob (sigmaZ ob 1 phi) orddiff.toNat
    let k := ob.fdiv r.2.lc essentialPart
    if k = 0 then some (⟨(0, 0), 0, 0, 0, false⟩, [])
    else
      let alpha := sigmaFac ob k orddiff.toNat
      let alpha2 := alpha * sigmaZ ob orddiff k
      (quoRem (alpha2 • r.1) r.2 true).map
        (fun newRem =>
          (⟨(r.2, mapFdiv newRem.2 beta), newRem.1, alpha2, beta, true⟩,
            Aux.iv d1 :: Aux.sc alpha :: Aux.sc k :: Aux.sc essentialPart ::
              Aux.sc phi :: []))
  | Aux.iv d2 :: Aux.sc oldalpha :: Aux.sc k0 :: Aux.sc essentialPart0 ::
      Aux.sc phi0 :: rest =>
    let phi := oldalpha / sigmaFac ob (sigmaZ ob 1 phi0) (d2 - d1 - 1).toNat
    let beta := (-1 : K) ^ (orddiff + 1).toNat *
      sigmaFac ob (sigmaZ ob 1 phi) orddiff.toNat * k0
    let essentialPart := sigmaZ ob (-orddiff) essentialPart0
    let k := ob.fdiv r.2.lc essentialPart
    if k = 0 then some (⟨(0, 0), 0, 0, 0, false⟩, rest)
    else
      let alpha := sigmaFac ob k orddiff.toNat
      let alpha2 := alpha * sigmaZ ob orddiff k
      (quoRem (alpha2 • r.1) r.2 true).map
        (fun newRem =>
          (⟨(r.2, mapFdiv newRem.2 beta), newRem.1, alpha2, beta, true⟩,
            Aux.iv d1 :: Aux.sc alpha :: Aux.sc k :: Aux.sc essentialPart ::
              Aux.sc phi :: rest))
  | _ => none

/-- `__subresultantPRS__`: the subresultant polynomial remainder sequence. -/
def subresultantPRS (r : Op ob × Op ob) (additional : List (Aux K)) :
    Option (StepRes ob × List (Aux K)) :=
  let d0 := r.1.ord
  let d1 := r.2.ord
  let orddiff : ℤ := d0 - d1
  match additional with
  | [] =>
    let phi : K := -1
    let beta := (-1 : K) * sigmaFac ob (sigmaZ ob 1 phi) orddiff.toNat
    let alpha := sigmaFac ob r.2.lc (orddiff + 1).toNat
    (quoRem (alpha • r.1) r.2 true).map
      (fun newRem =>
        (⟨(r.2, mapFdiv newRem.2 beta), newRem.1, alpha, beta, true⟩,
          Aux.iv d1 :: Aux.sc phi :: []))
  | Aux.iv d2 :: Aux.sc phi0 :: rest =>
    let phi := sigmaFac ob (-r.1.lc) (d0 - d1).toNat /
      sigmaFac ob (sigmaZ ob 1 phi0) (d0 - d1 - 1).toNat
    let beta := (-1 : K) * sigmaFac ob (sigmaZ ob 1 phi) orddiff.toNat * r.1.lc
    let alpha := sigmaFac ob r.2.lc (orddiff + 1).toNat
    (quoRem (alpha • r.1) r.2 true).map
      (fun newRem =>
        (⟨(r.2, mapFdiv newRem.2 beta), newRem.1, alpha, beta, true⟩,
          Aux.iv d1 :: Aux.sc phi :: rest))
  | _ => none

/-- The four selectable remainder-sequence strategies (plus `monic`, which
the source defines but the driver never selects by default). -/
inductive PRSTag where
  | classic | primitive | improved | subresultant | monic
deriving DecidableEq

/-- Strategy dispatch: the `prs` variable of `gcrd`/`xgcrd`. -/
def stepOf (tag : PRSTag) :
    Op ob × Op ob → List (Aux K) → Option (StepRes ob × List (Aux K)) :=
  match tag with
  | PRSTag.classic => classicPRS
  | PRSTag.primitive => primitivePRS
  | PRSTag.improved => improvedPRS
  | PRSTag.subresultant => subresultantPRS
  | PRSTag.monic => monicPRS

/-- The driver loop of `gcrd` (source lines 839-846): repeat strategy steps
until the second element of the pair is zero; when a step reports
`correct = false`, permanently switch the strategy to `primitive` (the pair
is not advanced on such a step).  The final strategy tag is returned
alongside the result so that the caller can decide whether to take the
primitive part.  `fuel` bounds the iteration count; `none` models a raised
exception. -/
def gcrdLoop (ob : OreBase K) :
    Nat → Op ob × Op ob → List (Aux K) → PRSTag → Option (Op ob × PRSTag)
  | 0, _, _, _ => none
  | fuel + 1, r, additional, tag =>
    if r.2 = 0 then some (r.1, tag)
    else
      match stepOf tag r additional with
      | none => none
      | some (res, aux2) =>
        if res.ok then gcrdLoop ob fuel res.r2 aux2 tag
        else gcrdLoop ob fuel r aux2 PRSTag.primitive

/-- `gcrd` (source lines 803-851) for two operators of one algebra.
`prsOpt` models the optional `prs` keyword: when absent, the starting
strategy is `classic` over a field base ring and `improved` otherwise.
Unless the loop ends with the `classic` strategy, the primitive part of the
result is returned. -/
def gcrd (prsOpt : Option PRSTag) (A B : Op ob) : Option (Op ob) :=
  if A = 0 then some B
  else if B = 0 then some A
  else if A.l.length ≤ 1 ∨ B.l.length ≤ 1 then some 1
  else
    let r := if A.ord < B.ord then (B, A) else (A, B)
    let tag0 := prsOpt.getD (if ob.isField then PRSTag.classic else PRSTag.improved)
    match gcrdLoop ob (A.l.length + B.l.length + 2) r [] tag0 with
    | none => none
    | some (g, tagF) =>
      some (if tagF = PRSTag.classic then g else primitivePart true g)

/-- The driver loop of `xgcrd` (source lines 887-895): like `gcrdLoop`, but
also accumulates the Bezout matrix
`a11, a12, a21, a22 = a21, a22, beta⁻¹*(alpha*a11 - q*a21), beta⁻¹*(alpha*a12 - q*a22)`
on every correct step (over the fraction field of the base ring). -/
def xgcrdLoop (ob : OreBase K) :
    Nat → Op ob × Op ob → List (Aux K) → PRSTag →
      Op ob → Op ob → Op ob → Op ob → Option ((Op ob × PRSTag) × Op ob × Op ob)
  | 0, _, _, _, _, _, _, _ => none
  | fuel + 1, r, additional, tag, a11, a12, a21, a22 =>
    if r.2 = 0 then some ((r.1, tag), a11, a12)
    else
      match stepOf tag r additional with
      | none => none
      | some (res, aux2) =>
        if res.ok then
          let bInv := res.beta⁻¹
          xgcrdLoop ob fuel res.r2 aux2 tag a21 a22
            (bInv • (res.alpha • a11 - res.q * a21))
            (bInv • (res.alpha • a12 - res.q * a22))
        else xgcrdLoop ob fuel r aux2 PRSTag.primitive a11 a12 a21 a22

/-- `xgcrd` (source lines 853-901).  On the degenerate inputs handled before
the remainder sequence starts (a zero operand, or an operand lying in the
base ring) the source returns a bare operator instead of a `(g, s, t)`
triple; this is the `Sum.inl` constructor.  Otherwise the pair is ordered by
non-increasing order, the loop is run with the Bezout matrix, and
`(g, a11, a12)` is returned (`g` replaced by its primitive part unless the
final strategy is `classic`). -/
def xgcrd (prsOpt : Option PRSTag) (A B : Op ob) :
    Option (Op ob ⊕ (Op ob × Op ob × Op ob)) :=
  if A = 0 then some (Sum.inl B)
  else if B = 0 then some (Sum.inl A)
  else if A.l.length ≤ 1 ∨ B.l.length ≤ 1 then some (Sum.inl 1)
  else
    let r := if A.ord < B.ord then (B, A) else (A, B)
    let tag0 := prsOpt.getD (if ob.isField then PRSTag.classic else PRSTag.improved)
    match xgcrdLoop ob (A.l.length + B.l.length + 2) r [] tag0 1 0 0 1 with
    | none => none
    | some ((g, tagF), s, t) =>
      some (Sum.inr (if tagF = PRSTag.classic then g else primitivePart true g, s, t))

theorem one_smul_op (x : Op ob) : (1 : K) • x = x := extc (fun n => by simp)

theorem quoRem_spec {A B Q R : Op ob} (hB : B ≠ 0)
    (h : quoRem A B false = some (Q, R)) :
    Q * B + R = A ∧ (R = 0 ∨ R.ord < B.ord) := by
  obtain ⟨Q2, R2, heq, hval, hR⟩ := quoRem_correct A B hB
  rw [heq] at h
  obtain ⟨h1, h2⟩ : Q2 = Q ∧ R2 = R := by
    have := Option.some.inj h
    exact ⟨congrArg Prod.fst this, congrArg Prod.snd this⟩
  rw [← h1, ← h2]
  exact ⟨hval, hR⟩

/-- Claim C10.  The degenerate branches of `xgcrd` return a bare operator
(no Bezout cofactors): `other` when `self` is zero, `self` when `other` is
zero, and the algebra's one element when either operand lies in the base
ring. -/
theorem xgcrd_degenerate (prsOpt : Option PRSTag) (A B : Op ob) :
    (A = 0 → xgcrd prsOpt A B = some (Sum.inl B)) ∧
      (A ≠ 0 → B = 0 → xgcrd prsOpt A B = some (Sum.inl A)) ∧
      (A ≠ 0 → B ≠ 0 → A.l.length ≤ 1 ∨ B.l.length ≤ 1 →
        xgcrd prsOpt A B = some (Sum.inl 1)) := by
  refine ⟨?_, ?_, ?_⟩
  · intro h
    rw [xgcrd, if_pos h]
  · intro hA hB
    rw [xgcrd, if_neg hA, if_pos hB]
  · intro hA hB hbase
    rw [xgcrd, if_neg hA, if_neg hB, if_pos hbase]

theorem primitivePRS_ok {r : Op ob × Op ob} {aux : List (Aux K)}
    {res : StepRes ob} {aux2 : List (Aux K)}
    (h : primitivePRS r aux = some (res, aux2)) : res.ok = true := by
  unfold primitivePRS at h
  cases hq : quoRem ((sigmaFac ob r.2.lc (r.1.ord - r.2.ord + 1).toNat) • r.1) r.2 true with
  | none =>
    rw [hq] at h
    exact Option.noConfusion h
  | some nr =>
    rw [hq] at h
    have h2 := Option.some.inj h
    have hres : res = ⟨(r.2, mapFdiv nr.2 (content true nr.2)), nr.1,
        sigmaFac ob r.2.lc (r.1.ord - r.2.ord + 1).toNat, content true nr.2, true⟩ :=
      (congrArg Prod.fst h2).symm
    rw [hres]

theorem gcrdLoop_primitive_tag {fuel : Nat} :
    ∀ {r : Op ob × Op ob} {aux : List (Aux K)} {g : Op ob} {t : PRSTag},
      gcrdLoop ob fuel r aux PRSTag.primitive = some (g, t) → t = PRSTag.primitive := by
  induction fuel with
  | zero => intro r aux g t h; simp [gcrdLoop] at h
  | succ fuel ih =>
    intro r aux g t h
    rw [gcrdLoop] at h
    by_cases hr : r.2 = 0
    · rw [if_pos hr] at h
      exact (congrArg Prod.snd (Option.some.inj h)).symm
    · rw [if_neg hr] at h
      cases hs : stepOf PRSTag.primitive r aux with
      | none => rw [hs] at h; simp at h
      | some p =>
        rw [hs] at h
        obtain ⟨res, aux2⟩ := p
        have hok : res.ok = true := primitivePRS_ok hs
        dsimp only at h
        rw [hok] at h
        simp only [if_pos rfl] at h
        exact ih h

/-- Claim C4.  (i) With no strategy supplied, `gcrd` and `xgcrd` start from
`classic` if the base ring is a field and `improved` otherwise; (ii) when a
reduction step reports `ok = false`, both driver loops continue (the failure
is not raised to the caller) with the strategy permanently replaced by
`primitive`; (iii) a `primitive` step always reports `ok = true`, so once
the fallback happens every subsequent step of the computation uses
`primitive` (witnessed by the final tag of the loop). -/
theorem gcrd_default_and_fallback (A B : Op ob) (fuel : Nat) (r : Op ob × Op ob)
    (aux aux2 : List (Aux K)) (tag : PRSTag) (res : StepRes ob)
    (a11 a12 a21 a22 : Op ob) :
    (gcrd none A B =
        gcrd (some (if ob.isField then PRSTag.classic else PRSTag.improved)) A B) ∧
      (xgcrd none A B =
        xgcrd (some (if ob.isField then PRSTag.classic else PRSTag.improved)) A B) ∧
      (r.2 ≠ 0 → stepOf tag r aux = some (res, aux2) → res.ok = false →
        gcrdLoop ob (fuel + 1) r aux tag = gcrdLoop ob fuel r aux2 PRSTag.primitive) ∧
      (r.2 ≠ 0 → stepOf tag r aux = some (res, aux2) → res.ok = false →
        xgcrdLoop ob (fuel + 1) r aux tag a11 a12 a21 a22 =
          xgcrdLoop ob fuel r aux2 PRSTag.primitive a11 a12 a21 a22) ∧
      (∀ (r2 : Op ob × Op ob) aux3 res2 aux4, primitivePRS r2 aux3 = some (res2, aux4) →
        res2.ok = true) ∧
      (∀ fuel2 r2 aux3 g t, gcrdLoop ob fuel2 r2 aux3 PRSTag.primitive = some (g, t) →
        t = PRSTag.primitive) := by
  refine ⟨rfl, rfl, ?_, ?_, ?_, ?_⟩
  · intro hr hs hok
    rw [gcrdLoop, if_neg hr, hs]
    simp only [hok]
    rfl
  · intro hr hs hok
    rw [xgcrdLoop, if_neg hr, hs]
    simp only [hok]
    rfl
  · intro r2 aux3 res2 aux4 h
    exact primitivePRS_ok h
  · intro fuel2 r2 aux3 g t h
    exact gcrdLoop_primitive_tag h

theorem xgcrdLoop_classic_correct {A0 B0 : Op ob} (fuel : Nat) :
    ∀ (r : Op ob × Op ob) (aux : List (Aux K)) (a11 a12 a21 a22 : Op ob),
      r.2.l.length < fuel →
      a11 * A0 + a12 * B0 = r.1 →
      a21 * A0 + a22 * B0 = r.2 →
      ∃ g s t, xgcrdLoop ob fuel r aux PRSTag.classic a11 a12 a21 a22 =
          some ((g, PRSTag.classic), s, t) ∧ s * A0 + t * B0 = g := by
  induction fuel with
  | zero => intro r aux a11 a12 a21 a22 h; omega
  | succ fuel ih =>
    intro r aux a11 a12 a21 a22 hfuel hinv1 hinv2
    by_cases hr : r.2 = 0
    · refine ⟨r.1, a11, a12, ?_, hinv1⟩
      rw [xgcrdLoop, if_pos hr]
    · obtain ⟨Q, R, heq, hval, hR⟩ := quoRem_correct r.1 r.2 hr
      have hstep : stepOf PRSTag.classic r aux =
          some (⟨(r.2, R), Q, 1, 1, true⟩, aux) := by
        show classicPRS r aux = _
        rw [classicPRS, heq]
        rfl
      have hRlen : R.l.length < r.2.l.length := by
        rcases hR with h0 | hlt
        · rw [h0]
          exact length_pos_of_ne hr
        · exact ord_lt_iff.mp hlt
      have hinv2' : (a11 - Q * a21) * A0 + (a12 - Q * a22) * B0 = R := by
        have hstep2 : (a11 - Q * a21) * A0 + (a12 - Q * a22) * B0 =
            (a11 * A0 + a12 * B0) - Q * (a21 * A0 + a22 * B0) := by
          rw [sub_mul, sub_mul, mul_add, mul_assoc, mul_assoc]
          abel
        rw [hstep2, hinv1, hinv2, ← hval]
        abel
      obtain ⟨g, s, t, hrun, hbez⟩ := ih (r.2, R) aux a21 a22
        (a11 - Q * a21) (a12 - Q * a22) (by show R.l.length < fuel; omega) hinv2 hinv2'
      refine ⟨g, s, t, ?_, hbez⟩
      rw [xgcrdLoop, if_neg hr, hstep]
      simp only [eq_self_iff_true, if_true, inv_one, one_smul_op]
      exact hrun

theorem classicPRS_ok {r : Op ob × Op ob} {aux aux2 : List (Aux K)}
    {res : StepRes ob} (h : stepOf PRSTag.classic r aux = some (res, aux2)) :
    res.ok = true := by
  have h2 : classicPRS r aux = some (res, aux2) := h
  unfold classicPRS at h2
  cases hq : quoRem r.1 r.2 false with
  | none =>
    rw [hq] at h2
    exact Option.noConfusion h2
  | some nr =>
    rw [hq] at h2
    have h3 := Option.some.inj h2
    have hres : res = ⟨(r.2, nr.2), nr.1, 1, 1, true⟩ := (congrArg Prod.fst h3).symm
    rw [hres]

/-- A run of the extended loop projects onto a run of the plain `gcrd`
loop: with the `classic` strategy both consume the same remainder sequence,
so they return the same `g` (and the same final tag). -/
theorem xgcrdLoop_gcrdLoop_classic {fuel : Nat} :
    ∀ {r : Op ob × Op ob} {aux : List (Aux K)} {a11 a12 a21 a22 : Op ob}
      {g : Op ob} {tg : PRSTag} {s t : Op ob},
      xgcrdLoop ob fuel r aux PRSTag.classic a11 a12 a21 a22 = some ((g, tg), s, t) →
      gcrdLoop ob fuel r aux PRSTag.classic = some (g, tg) := by
  induction fuel with
  | zero =>
    intro r aux a11 a12 a21 a22 g tg s t h
    simp [xgcrdLoop] at h
  | succ fuel ih =>
    intro r aux a11 a12 a21 a22 g tg s t h
    rw [xgcrdLoop] at h
    rw [gcrdLoop]
    by_cases hr : r.2 = 0
    · rw [if_pos hr] at h
      rw [if_pos hr]
      exact congrArg some (congrArg Prod.fst (Option.some.inj h))
    · rw [if_neg hr] at h
      rw [if_neg hr]
      cases hs : stepOf PRSTag.classic r aux with
      | none =>
        rw [hs] at h
        exact Option.noConfusion h
      | some p =>
        rw [hs] at h
        obtain ⟨res, aux2⟩ := p
        have hok : res.ok = true := classicPRS_ok hs
        dsimp only at h
        rw [hok] at h
        simp only [if_pos rfl] at h
        show (if res.ok = true then gcrdLoop ob fuel res.r2 aux2 PRSTag.classic
          else gcrdLoop ob fuel r aux2 PRSTag.primitive) = some (g, tg)
        rw [hok]
        simp only [eq_self_iff_true, if_true]
        exact ih h

/-- Amended claim C2.  With the `classic` strategy -- supplied explicitly
over any base ring, or as the default over a field base ring -- `xgcrd(A, B)`
for nonzero operands outside the base ring returns `(G, S, T)` where `G` is
the same invocation's `gcrd(A, B)` (the greatest common right divisor as the
module computes it) and `S*A' + T*B' == G` over the fraction field of the
base ring, with `(A', B')` the input pair reordered so that
`order(A') >= order(B')`: the source swaps the pair before the remainder
sequence, so the cofactors attach to the reordered pair, and the final
`primitive_part` taken by the fraction-free strategies rescales `G` but not
the cofactors. -/
theorem xgcrd_bezout_classic (prsOpt : Option PRSTag) (A B : Op ob)
    (htag : prsOpt = some PRSTag.classic ∨ (prsOpt = none ∧ ob.isField = true))
    (hA : A ≠ 0) (hB : B ≠ 0) (hAb : ¬A.l.length ≤ 1) (hBb : ¬B.l.length ≤ 1) :
    ∃ G S T, xgcrd prsOpt A B = some (Sum.inr (G, S, T)) ∧
      gcrd prsOpt A B = some G ∧
      S * (if A.ord < B.ord then B else A) +
        T * (if A.ord < B.ord then A else B) = G := by
  have hbase : ¬(A.l.length ≤ 1 ∨ B.l.length ≤ 1) := by
    push_neg
    omega
  have htag0 : prsOpt.getD (if ob.isField then PRSTag.classic else PRSTag.improved) =
      PRSTag.classic := by
    rcases htag with h | ⟨h, hF⟩
    · rw [h]
      rfl
    · rw [h, hF]
      rfl
  by_cases hord : A.ord < B.ord
  · obtain ⟨g, s, t, hrun, hbez⟩ := @xgcrdLoop_classic_correct K _ _ ob B A
      (A.l.length + B.l.length + 2) (B, A) [] 1 0 0 1 (by show A.l.length < _; omega)
      (by rw [one_mul, zero_mul, add_zero])
      (by rw [one_mul, zero_mul, zero_add])
    have hgrun : gcrdLoop ob (A.l.length + B.l.length + 2) (B, A) [] PRSTag.classic =
        some (g, PRSTag.classic) := xgcrdLoop_gcrdLoop_classic hrun
    refine ⟨g, s, t, ?_, ?_, ?_⟩
    · rw [xgcrd, if_neg hA, if_neg hB, if_neg hbase]
      show (match xgcrdLoop ob (A.l.length + B.l.length + 2)
          (if A.ord < B.ord then (B, A) else (A, B)) []
          (prsOpt.getD (if ob.isField then PRSTag.classic else PRSTag.improved))
          1 0 0 1 with
        | none => none
        | some ((g, tagF), s, t) =>
          some (Sum.inr (if tagF = PRSTag.classic then g else primitivePart true g, s, t))) = _
      rw [if_pos hord, htag0, hrun]
      simp
    · rw [gcrd, if_neg hA, if_neg hB, if_neg hbase]
      show (match gcrdLoop ob (A.l.length + B.l.length + 2)
          (if A.ord < B.ord then (B, A) else (A, B)) []
          (prsOpt.getD (if ob.isField then PRSTag.classic else PRSTag.improved)) with
        | none => none
        | some (g, tagF) =>
          some (if tagF = PRSTag.classic then g else primitivePart true g)) = _
      rw [if_pos hord, htag0, hgrun]
      simp
    · rw [if_pos hord, if_pos hord]
      exact hbez
  · obtain ⟨g, s, t, hrun, hbez⟩ := @xgcrdLoop_classic_correct K _ _ ob A B
      (A.l.length + B.l.length + 2) (A, B) [] 1 0 0 1 (by show B.l.length < _; omega)
      (by rw [one_mul, zero_mul, add_zero])
      (by rw [one_mul, zero_mul, zero_add])
    have hgrun : gcrdLoop ob (A.l.length + B.l.length + 2) (A, B) [] PRSTag.classic =
        some (g, PRSTag.classic) := xgcrdLoop_gcrdLoop_classic hrun
    refine ⟨g, s, t, ?_, ?_, ?_⟩
    · rw [xgcrd, if_neg hA, if_neg hB, if_neg hbase]
      show (match xgcrdLoop ob (A.l.length + B.l.length + 2)
          (if A.ord < B.ord then (B, A) else (A, B)) []
          (prsOpt.getD (if ob.isField then PRSTag.classic else PRSTag.improved))
          1 0 0 1 with
        | none => none
        | some ((g, tagF), s, t) =>
          some (Sum.inr (if tagF = PRSTag.classic then g else primitivePart true g, s, t))) = _
      rw [if_neg hord, htag0, hrun]
      simp
    · rw [gcrd, if_neg hA, if_neg hB, if_neg hbase]
      show (match gcrdLoop ob (A.l.length + B.l.length + 2)
          (if A.ord < B.ord then (B, A) else (A, B)) []
          (prsOpt.getD (if ob.isField then PRSTag.classic else PRSTag.improved)) with
        | none => none
        | some (g, tagF) =>
          some (if tagF = PRSTag.classic then g else primitivePart true g)) = _
      rw [if_neg hord, htag0, hgrun]
      simp
    · rw [if_neg hord, if_neg hord]
      exact hbez

end Op

/-- The two-element field, with kernel-computable arithmetic, used as a
concrete coefficient field for witnesses and counterexamples. -/
inductive F2 where
  | z
  | o
deriving DecidableEq, Fintype

def F2.add : F2 → F2 → F2
  | F2.z, b => b
  | a, F2.z => a
  | F2.o, F2.o => F2.z

def F2.mul : F2 → F2 → F2
  | F2.o, F2.o => F2.o
  | _, _ => F2.z

instance : Zero F2 := ⟨F2.z⟩

instance : One F2 := ⟨F2.o⟩

instance : Add F2 := ⟨F2.add⟩

instance : Mul F2 := ⟨F2.mul⟩

instance : Neg F2 := ⟨id⟩

instance : Inv F2 := ⟨id⟩

instance : Field F2 :=
  Field.ofMinimalAxioms F2
    (by decide) (by decide) (by decide) (by decide) (by decide) (by decide)
    (by decide) (by decide) (by decide) ⟨F2.z, F2.o, by decide⟩

/-- A concrete algebra over the field `F2` with the trivial twist
(`sigma = id`, `delta = 0`). -/
def F2B : OreBase F2 where
  sigma := id
  sigmaInv := id
  delta := fun _ => 0
  isField := true
  fdiv := fun a b => a / b
  bgcd := fun _ _ => 1
  denomLcm := fun _ => 1
  hasGcd := true
  bterms := fun _ => 1
  bkey := fun _ => 0
  bisUnit := fun c => !decide (c = 0)
  bisBottom := fun _ => true
  blc := id
  btower := 1
  sigma_add := fun _ _ => rfl
  sigma_mul := fun _ _ => rfl
  sigma_one := rfl
  sigmaInv_sigma := fun _ => rfl
  sigma_sigmaInv := fun _ => rfl
  delta_add := fun _ _ => by simp
  delta_mul := fun _ _ => by simp
  denomLcm_ne_zero := fun _ => one_ne_zero
  bisUnit_field := fun _ _ => rfl

/-- A concrete algebra descriptor whose base ring is declared not to be a
field; its `//` and `gcd` capabilities are black boxes (here: a constant
floor division, enough to exercise the non-applicability signal of the
`improved` strategy). -/
def F2N : OreBase F2 where
  sigma := id
  sigmaInv := id
  delta := fun _ => 0
  isField := false
  fdiv := fun _ _ => 0
  bgcd := fun _ _ => 1
  denomLcm := fun _ => 1
  hasGcd := false
  bterms := fun _ => 1
  bkey := fun _ => 0
  bisUnit := fun _ => false
  bisBottom := fun _ => true
  blc := id
  btower := 1
  sigma_add := fun _ _ => rfl
  sigma_mul := fun _ _ => rfl
  sigma_one := rfl
  sigmaInv_sigma := fun _ => rfl
  sigma_sigmaInv := fun _ => rfl
  delta_add := fun _ _ => by simp
  delta_mul := fun _ _ => by simp
  denomLcm_ne_zero := fun _ => one_ne_zero
  bisUnit_field := fun h => nomatch h

/-- `D` in the `F2B` algebra. -/
def cD : Op F2B := Op.ofL F2B [0, 1]

/-- `D^2` in the `F2B` algebra. -/
def cD2 : Op F2B := Op.ofL F2B [0, 0, 1]

/-- Counterexample to claim C2 as stated: for `A = D` and `B = D^2` (so
`order(A) < order(B)`) over the field `F2` with the default `classic`
strategy, `xgcrd(A, B)` returns `(G, S, T) = (D, 0, 1)`, and
`S*A + T*B = D^2 != D = G`: the Bezout identity fails for the input order
of the operands, because the source swaps the pair so that the cofactors
attach to the reordered pair `(B, A)`. -/
theorem xgcrd_bezout_counterexample :
    Op.xgcrd none cD cD2 = some (Sum.inr (cD, 0, 1)) ∧
      ¬((0 : Op F2B) * cD + 1 * cD2 = cD) := by
  constructor
  · decide
  · decide

def wA : Op F2B := Op.ofL F2B [1, 1, 1]

def wB : Op F2B := Op.ofL F2B [1, 1]

/-- Witness for C1 at a concrete input. -/
theorem quoRem_correct_witness :
    wB ≠ 0 ∧ ∃ Q R, Op.quoRem wA wB false = some (Q, R) ∧
      Q * wB + R = wA ∧ (R = 0 ∨ R.ord < wB.ord) :=
  ⟨by decide, Op.quoRem_correct wA wB (by decide)⟩

/-- Witness for the amended C2 at a concrete input with
`order(A) >= order(B)`. -/
theorem xgcrd_bezout_classic_witness :
    (F2B.isField = true ∧ cD2 ≠ 0 ∧ cD ≠ 0 ∧ ¬cD2.l.length ≤ 1 ∧ ¬cD.l.length ≤ 1) ∧
      ∃ G S T, Op.xgcrd none cD2 cD = some (Sum.inr (G, S, T)) ∧
        Op.gcrd none cD2 cD = some G ∧
        S * (if cD2.ord < cD.ord then cD else cD2) +
          T * (if cD2.ord < cD.ord then cD2 else cD) = G :=
  ⟨⟨rfl, by decide, by decide, by decide, by decide⟩,
    Op.xgcrd_bezout_classic none cD2 cD (Or.inr ⟨rfl, rfl⟩) (by decide) (by decide)
      (by decide) (by decide)⟩

/-- Witness for C8 at concrete inputs. -/
theorem quoRem_zero_divisor_and_short_witness :
    Op.quoRem (Op.ofL F2B [1, 1]) (0 : Op F2B) false = none ∧
      (cD2 ≠ 0 ∧ (Op.ofL F2B [1, 1]).ord < cD2.ord ∧
        Op.quoRem (Op.ofL F2B [1, 1]) cD2 false = some (0, Op.ofL F2B [1, 1])) :=
  ⟨(Op.quoRem_zero_divisor_and_short (Op.ofL F2B [1, 1]) cD2 false).1,
    by decide, by decide,
    (Op.quoRem_zero_divisor_and_short (Op.ofL F2B [1, 1]) cD2 false).2
      (by decide) (by decide)⟩

/-- Witness for C10: the three degenerate branches at concrete inputs. -/
theorem xgcrd_degenerate_witness :
    Op.xgcrd (some Op.PRSTag.classic) (0 : Op F2B) cD = some (Sum.inl cD) ∧
      Op.xgcrd (some Op.PRSTag.classic) cD (0 : Op F2B) = some (Sum.inl cD) ∧
      Op.xgcrd (some Op.PRSTag.classic) (Op.ofL F2B [1]) cD = some (Sum.inl 1) :=
  ⟨(Op.xgcrd_degenerate (some Op.PRSTag.classic) (0 : Op F2B) cD).1 rfl,
    (Op.xgcrd_degenerate (some Op.PRSTag.classic) cD (0 : Op F2B)).2.1
      (by decide) rfl,
    (Op.xgcrd_degenerate (some Op.PRSTag.classic) (Op.ofL F2B [1]) cD).2.2
      (by decide) (by decide) (by decide)⟩

def nA : Op F2N := Op.ofL F2N [1, 1, 1]

def nB : Op F2N := Op.ofL F2N [1, 1]

def nRes : Op.StepRes F2N := ⟨(0, 0), 0, 0, 0, false⟩

/-- Witness for C4: a concrete `improved` step that signals
non-applicability (`ok = false`), on which the driver switches to
`primitive`. -/
theorem gcrd_default_and_fallback_witness :
    ((nA, nB).2 ≠ 0 ∧
        Op.stepOf Op.PRSTag.improved (nA, nB) [] = some (nRes, []) ∧
        nRes.ok = false) ∧
      Op.gcrdLoop F2N (5 + 1) (nA, nB) [] Op.PRSTag.improved =
        Op.gcrdLoop F2N 5 (nA, nB) [] Op.PRSTag.primitive :=
  ⟨⟨by decide, by decide, by decide⟩,
    (Op.gcrd_default_and_fallback nA nB 5 (nA, nB) [] [] Op.PRSTag.improved nRes
        1 0 0 1).2.2.1 (by decide) (by decide) (by decide)⟩

def zA : Op Op.ZB := Op.ofL Op.ZB [1]

def zB : Op Op.ZB := Op.ofL Op.ZB [2]

theorem zB_qrC : Op.qrC Op.ZB false zA zB = 0 := by
  show Op.ZB.fdiv zA.lc ((Op.ZB.sigma)^[(zA.ord - zB.ord).toNat] zB.lc) = 0
  have h1 : zA.lc = 1 := by decide
  have h2 : zB.lc = 2 := by decide
  have h3 : (zA.ord - zB.ord).toNat = 0 := by decide
  rw [h1, h2, h3]
  show ((⌊(1 : ℚ) / 2⌋ : ℤ) : ℚ) = 0
  have hf : ⌊(1 : ℚ) / 2⌋ = 0 := by
    rw [Int.floor_eq_zero_iff, Set.mem_Ico]
    constructor
    · norm_num
    · norm_num
  rw [hf]
  norm_num

theorem zB_qrMono : Op.qrMono Op.ZB false zA zB = 0 := by
  show Op.monom Op.ZB (Op.qrC Op.ZB false zA zB) (zA.ord - zB.ord).toNat = 0
  have h3 : (zA.ord - zB.ord).toNat = 0 := by decide
  rw [zB_qrC, h3]
  apply Op.eq_of_l_eq
  show trim [(0 : ℚ)] = []
  simp [trim]

theorem zB_stagnates : (zA - Op.qrMono Op.ZB false zA zB * zB).ord = zA.ord := by
  rw [zB_qrMono, zero_mul, sub_zero]

/-- Witness for C5: over the base ring `ZZ` (carried in `QQ`), dividing `1`
by `2` fraction-freely stagnates (`1 // 2 = 0`), and the loop continues as
the restarted true-division loop from the original operands. -/
theorem quoRem_stagnation_restart_witness :
    (Op.ZB.isField = false ∧ zB ≠ 0 ∧ ¬zA.ord < zB.ord ∧
        (zA - Op.qrMono Op.ZB false zA zB * zB).ord = zA.ord) ∧
      ((zA - Op.qrMono Op.ZB true zA zB * zB).ord < zA.ord ∧
        Op.qrLoop Op.ZB zA zB (3 + 1) false zA 0 =
          Op.qrLoop Op.ZB zA zB 3 true zA (0 + Op.qrMono Op.ZB false zA zB) ∧
        (zA.l.length < 3 →
          ∃ Q R, Op.qrLoop Op.ZB zA zB 3 true zA (0 + Op.qrMono Op.ZB false zA zB) = (Q, R) ∧
            (R = 0 ∨ R.ord < zB.ord))) :=
  ⟨⟨rfl, by decide, by decide, zB_stagnates⟩,
    Op.quoRem_stagnation_restart zA zB zA 0 3 rfl (by decide) (by decide) zB_stagnates⟩

namespace Op

variable {K : Type} [Field K] [DecidableEq K] {ob : OreBase K}

/-- `coeffs(padd=t)` (source lines 1291-1314): the dense coefficient list,
padded with zeros to length `padd + 1` when shorter. -/
def coeffsPad (x : Op ob) (padd : Nat) : List K :=
  if x.l.length ≤ padd then x.l ++ List.replicate (padd + 1 - x.l.length) 0 else x.l

theorem coeff_coeffsPad (x : Op ob) (padd n : Nat) :
    coeff (coeffsPad x padd) n = x.cf n := by
  rw [coeffsPad]
  by_cases h : x.l.length ≤ padd
  · rw [if_pos h]
    by_cases hn : n < x.l.length
    · rw [cf, coeff, coeff, List.getD_append _ _ _ _ hn]
    · rw [cf, coeff_eq_zero_of_length_le (le_of_not_lt hn), coeff]
      rw [List.getD_eq_getElem?_getD, List.getElem?_append_right (le_of_not_lt hn)]
      cases hrep : (List.replicate (padd + 1 - x.l.length) (0 : K))[n - x.l.length]? with
      | none => rfl
      | some a =>
        have := List.getElem?_mem hrep
        rw [List.eq_of_mem_replicate this]
        rfl
  · rw [if_neg h]
    rfl

/-- `numerator()` (source lines 545-586): the operator itself when the base
ring is not a field; over a (fraction) field, the operator rescaled by the
lcm of its coefficient denominators. -/
def numerator (x : Op ob) : Op ob :=
  if ob.isField then ob.denomLcm x.l • x else x

/-- `D^i * X`: the `i`-th row of an LCLM ladder family, built like the
source by repeatedly multiplying the previous row by the generator. -/
def genPowMul (X : Op ob) : Nat → Op ob
  | 0 => X
  | i + 1 => gen ob * genPowMul X i

/-- The family `[X, D*X, ..., D^k*X]`. -/
def genRows (X : Op ob) (k : Nat) : List (Op ob) :=
  (List.range (k + 1)).map (genPowMul X)

/-- The ladder loop of `lclm` (source lines 978-985): at height `t`, stack
the padded coefficient vectors of `rowsA ++ rowsB` (the solver receives the
transposed matrix, i.e. exactly these vectors as columns) and ask the
solver for a null-space basis; while the answer is empty, increment `t` and
extend both families by one more shifted operator.  Returns the final
height together with `sol[0]`. -/
def lclmLadder (solver : List (List K) → List (List K)) (A B : Op ob)
    (r s : Nat) : Nat → Nat → Option (Nat × List K)
  | 0, _ => none
  | fuel + 1, t =>
    match solver ((genRows A (t - r) ++ genRows B (t - s)).map
        (fun p => coeffsPad p t)) with
    | [] => lclmLadder solver A B r s fuel (t + 1)
    | v :: _ => some (t, v)

/-- `lclm` (source lines 903-988), for one `other` operand and a given
kernel solver (the source defaults to the algebra's solver).  Degenerate
branches first: a zero operand gives zero, `self` of order 0 gives
`other`, `other` in the base ring gives `self`.  Otherwise run the ladder
from `t = max(r, s)` and return `U * A` where `U` is built from the first
`t+1-r` entries of the first solution vector. -/
def lclm (solver : List (List K) → List (List K)) (A B : Op ob) : Option (Op ob) :=
  if A = 0 ∨ B = 0 then some 0
  else if A.ord = 0 then some B
  else if B.l.length ≤ 1 then some A
  else
    match lclmLadder solver (numerator A) (numerator B)
        ((numerator A).l.length - 1) ((numerator B).l.length - 1)
        (((numerator A).l.length - 1) + ((numerator B).l.length - 1) + 2)
        (max ((numerator A).l.length - 1) ((numerator B).l.length - 1)) with
    | none => none
    | some (t, v) =>
      some (ofL ob (v.take (t + 1 - ((numerator A).l.length - 1))) * numerator A)

/-- `xlclm` (source lines 990-1028): `(L, L0 // A, L0 // B)` with the
quotients taken over the fraction field of the base ring (where the model's
coefficients already live). -/
def xlclm (solver : List (List K) → List (List K)) (A B : Op ob) :
    Option (Op ob × Op ob × Op ob) :=
  match lclm solver A B with
  | none => none
  | some L =>
    match quoRem L A false, quoRem L B false with
    | some qa, some qb => some (L, qa.1, qb.1)
    | _, _ => none

/-- "`c` is a null-space vector of the matrix whose columns are the given
coefficient rows": same length, and the `c`-combination of the rows
vanishes entrywise. -/
def IsKernelVec (rows : List (List K)) (c : List K) : Prop :=
  c.length = rows.length ∧
    ∀ n, (∑ i ∈ Finset.range rows.length, coeff c i * coeff (rows.getD i []) n) = 0

/-- The contract of the external linear-algebra solver, as assumed by
claim C7: the returned basis is empty exactly when the null space is
trivial, and every returned vector is a nontrivial null-space vector. -/
def SolverOK (solver : List (List K) → List (List K)) : Prop :=
  ∀ rows : List (List K),
    (solver rows = [] → ∀ c, IsKernelVec rows c → ∀ i, coeff c i = 0) ∧
      ∀ v ∈ solver rows, IsKernelVec rows v ∧ ∃ i, coeff v i ≠ 0

end Op

namespace Op

variable {K : Type} [Field K] [DecidableEq K] {ob : OreBase K}

theorem ladderMat_eq (A B : Op ob) (r s t : Nat) :
    (genRows A (t - r) ++ genRows B (t - s)).map (fun p => coeffsPad p t) =
      (genRows A (t - r)).map (fun p => coeffsPad p t) ++
        (genRows B (t - s)).map (fun p => coeffsPad p t) := List.map_append ..

theorem coeff_take_lt {l : List K} {k i : Nat} (h : i < k) :
    coeff (l.take k) i = coeff l i := by
  induction l generalizing k i with
  | nil => simp
  | cons a as ih =>
    cases k with
    | zero => omega
    | succ k =>
      cases i with
      | zero => rfl
      | succ i =>
        rw [List.take_succ_cons, coeff_cons_succ, coeff_cons_succ]
        exact ih (by omega)

theorem coeff_drop (l : List K) (k i : Nat) : coeff (l.drop k) i = coeff l (k + i) := by
  induction l generalizing k with
  | nil => simp
  | cons a as ih =>
    cases k with
    | zero => simp
    | succ k =>
      rw [List.drop_succ_cons]
      rw [ih]
      have : k + 1 + i = (k + i) + 1 := by omega
      rw [this, coeff_cons_succ]

theorem l_gen : (gen ob).l = [0, 1] := by
  show trim [0, 1] = [0, 1]
  apply trim_eq_self_of_getLast?
  simp [List.getLast?_cons_cons, List.getLast?_singleton]

theorem gen_ne_zero : gen ob ≠ 0 := by
  rw [ne_zero_iff_l_ne, l_gen]
  simp

theorem cf_gen_mul (X : Op ob) (n : Nat) : (gen ob * X).cf n = coeff (ob.stepD X.l) n := by
  rw [cf_mul, l_gen]
  show coeff (ob.mulAux (0 :: 1 :: []) X.l) n = _
  rw [OreBase.mulAux, OreBase.mulAux, OreBase.mulAux, coeff_addL, coeff_addL,
    coeff_smulL, coeff_smulL]
  simp

theorem cf_genPowMul (X : Op ob) (i n : Nat) :
    (genPowMul X i).cf n = coeff ((ob.stepD)^[i] X.l) n := by
  induction i generalizing n with
  | zero => rfl
  | succ i ih =>
    rw [genPowMul, cf_gen_mul, Function.iterate_succ_apply']
    exact stepD_congr ih n

theorem genPowMul_ne_zero {X : Op ob} (hX : X ≠ 0) (i : Nat) : genPowMul X i ≠ 0 := by
  induction i with
  | zero => exact hX
  | succ i ih => exact mul_ne_zero_op gen_ne_zero ih

theorem deg_genPowMul {X : Op ob} (hX : X ≠ 0) (i : Nat) :
    (genPowMul X i).l.length = X.l.length + i := by
  induction i with
  | zero => rfl
  | succ i ih =>
    rw [genPowMul, deg_mul gen_ne_zero (genPowMul_ne_zero hX i), l_gen, ih]
    simp only [List.length_cons, List.length_nil]
    omega

theorem length_smul_op {c : K} (hc : c ≠ 0) (x : Op ob) :
    (c • x).l.length = x.l.length := by
  by_cases hx : x = 0
  · rw [hx]
    have : c • (0 : Op ob) = 0 := extc (fun n => by simp)
    rw [this]
  · have hcf : ∀ n, (c • x).cf n = c * x.cf n := fun n => cf_smul c x n
    have hlen1 : (c • x).l.length = (x.l.length - 1) + 1 := by
      apply deg_eq_of
      · intro m hm
        rw [hcf, cf_eq_zero_of_le (by have := length_pos_of_ne hx; omega), mul_zero]
      · rw [hcf]
        exact mul_ne_zero hc (lc_ne_zero hx)
    have := length_pos_of_ne hx
    omega

theorem length_numerator (x : Op ob) : (numerator x).l.length = x.l.length := by
  rw [numerator]
  by_cases h : ob.isField
  · rw [if_pos h, length_smul_op (ob.denomLcm_ne_zero x.l)]
  · rw [if_neg h]

theorem numerator_ne_zero {x : Op ob} (hx : x ≠ 0) : numerator x ≠ 0 := by
  rw [ne_zero_iff_l_ne]
  intro h
  have := length_numerator x
  rw [h] at this
  simp only [List.length_nil] at this
  exact length_pos_of_ne hx |>.ne (by omega)

theorem exists_kernel_vec (rows : List (List K)) (t : Nat)
    (hlen : rows.length = t + 2)
    (hbd : ∀ l ∈ rows, ∀ n, t + 1 ≤ n → coeff l n = 0) :
    ∃ c, IsKernelVec rows c ∧ ∃ i, coeff c i ≠ 0 := by
  have hnli : ¬LinearIndependent K
      (fun (i : Fin (t + 2)) (j : Fin (t + 1)) => coeff (rows.getD i []) j) := by
    intro hli
    have hcard := hli.fintype_card_le_finrank
    rw [Module.finrank_fin_fun, Fintype.card_fin] at hcard
    omega
  obtain ⟨g, hsum, i0, hg⟩ := Fintype.not_linearIndependent_iff.mp hnli
  have hc : ∀ i : Nat, coeff ((List.finRange (t + 2)).map g) i =
      if h : i < t + 2 then g ⟨i, h⟩ else 0 := by
    intro i
    by_cases h : i < t + 2
    · rw [dif_pos h, coeff, List.getD_eq_getElem?_getD, List.getElem?_map]
      have : (List.finRange (t + 2))[i]? = some ⟨i, h⟩ := by
        rw [List.getElem?_eq_getElem (by rw [List.length_finRange]; exact h)]
        congr 1
        exact List.get_finRange _
      rw [this]
      rfl
    · rw [dif_neg h]
      exact coeff_eq_zero_of_length_le (by rw [List.length_map, List.length_finRange]; omega)
  refine ⟨(List.finRange (t + 2)).map g, ⟨?_, ?_⟩, ⟨i0, ?_⟩⟩
  · rw [List.length_map, List.length_finRange, hlen]
  · intro n
    by_cases hn : n < t + 1
    · have happ := congrFun hsum ⟨n, hn⟩
      rw [Finset.sum_apply] at happ
      simp only [Pi.smul_apply, smul_eq_mul, Pi.zero_apply] at happ
      rw [hlen, ← Fin.sum_univ_eq_sum_range
        (fun i => coeff ((List.finRange (t + 2)).map g) i * coeff (rows.getD i []) n)]
      rw [← happ]
      apply Finset.sum_congr rfl
      intro i _
      rw [hc i]
      rw [dif_pos i.isLt]
    · apply Finset.sum_eq_zero
      intro i hi
      rw [Finset.mem_range, hlen] at hi
      have hmem : rows.getD i [] ∈ rows := by
        rw [List.getD_eq_getElem?_getD, List.getElem?_eq_getElem (by omega)]
        exact List.getElem_mem _
      rw [hbd _ hmem n (by omega), mul_zero]
  · rw [hc i0, dif_pos i0.isLt]
    simpa using hg

end Op

namespace Op

variable {K : Type} [Field K] [DecidableEq K] {ob : OreBase K}

theorem ladderMat_length (A B : Op ob) (r s t : Nat) :
    ((genRows A (t - r) ++ genRows B (t - s)).map (fun p => coeffsPad p t)).length =
      (t - r + 1) + (t - s + 1) := by
  simp [genRows]

theorem ladderMat_bd (A B : Op ob) (hA : A ≠ 0) (hB : B ≠ 0) (t : Nat)
    (hr : A.l.length - 1 ≤ t) (hs : B.l.length - 1 ≤ t) :
    ∀ l ∈ (genRows A (t - (A.l.length - 1)) ++ genRows B (t - (B.l.length - 1))).map
        (fun p => coeffsPad p t), ∀ n, t + 1 ≤ n → coeff l n = 0 := by
  intro l hl n hn
  rw [List.mem_map] at hl
  obtain ⟨p, hp, hpad⟩ := hl
  rw [← hpad, coeff_coeffsPad]
  rw [List.mem_append] at hp
  rcases hp with hpA | hpB
  · rw [genRows, List.mem_map] at hpA
    obtain ⟨i, hi, hpi⟩ := hpA
    rw [List.mem_range] at hi
    rw [← hpi]
    apply cf_eq_zero_of_le
    rw [deg_genPowMul hA]
    have hA1 := length_pos_of_ne hA
    omega
  · rw [genRows, List.mem_map] at hpB
    obtain ⟨i, hi, hpi⟩ := hpB
    rw [List.mem_range] at hi
    rw [← hpi]
    apply cf_eq_zero_of_le
    rw [deg_genPowMul hB]
    have hB1 := length_pos_of_ne hB
    omega

theorem lclmLadder_reaches (solver : List (List K) → List (List K))
    (hsol : SolverOK solver) (A B : Op ob) (hA : A ≠ 0) (hB : B ≠ 0) :
    ∀ (fuel t : Nat), A.l.length - 1 ≤ t → B.l.length - 1 ≤ t →
      t ≤ (A.l.length - 1) + (B.l.length - 1) →
      (A.l.length - 1) + (B.l.length - 1) < t + fuel →
      ∃ t2 v tl, lclmLadder solver A B (A.l.length - 1) (B.l.length - 1) fuel t =
          some (t2, v) ∧
        solver ((genRows A (t2 - (A.l.length - 1)) ++
            genRows B (t2 - (B.l.length - 1))).map (fun p => coeffsPad p t2)) =
          v :: tl ∧
        A.l.length - 1 ≤ t2 ∧ B.l.length - 1 ≤ t2 ∧
        t2 ≤ (A.l.length - 1) + (B.l.length - 1) := by
  intro fuel
  induction fuel with
  | zero =>
    intro t h1 h2 h3 h4
    omega
  | succ fuel ih =>
    intro t h1 h2 h3 h4
    rw [lclmLadder]
    cases hsolv : solver ((genRows A (t - (A.l.length - 1)) ++
        genRows B (t - (B.l.length - 1))).map (fun p => coeffsPad p t)) with
    | nil =>
      have htlt : t < (A.l.length - 1) + (B.l.length - 1) := by
        rcases Nat.lt_or_ge t ((A.l.length - 1) + (B.l.length - 1)) with h | h
        · exact h
        · exfalso
          have hteq : t = (A.l.length - 1) + (B.l.length - 1) := by omega
          have hlen : ((genRows A (t - (A.l.length - 1)) ++
              genRows B (t - (B.l.length - 1))).map (fun p => coeffsPad p t)).length =
              t + 2 := by
            rw [ladderMat_length]
            have := length_pos_of_ne hA
            have := length_pos_of_ne hB
            omega
          obtain ⟨c, hker, i, hi⟩ := exists_kernel_vec _ t hlen
            (ladderMat_bd A B hA hB t h1 h2)
          exact hi ((hsol _).1 hsolv c hker i)
      obtain ⟨t2, v, tl, hrun, hsv, ha2, hb2, hle⟩ :=
        ih (t + 1) (by omega) (by omega) (by omega) (by omega)
      exact ⟨t2, v, tl, hrun, hsv, ha2, hb2, hle⟩
    | cons v tl => exact ⟨t, v, tl, rfl, hsolv, h1, h2, h3⟩

/-- Claim C7.  For nonzero, non-scalar operands, assuming the solver
contract (nonempty basis exactly when a nontrivial null space exists), the
LCLM ladder loop -- started at `t = max(r, s)` and incrementing `t` whenever
the solver finds no kernel vector -- terminates with final ladder height
`t <= r + s` (dimension argument: at `t = r+s` the matrix has `t+2` columns
of length `t+1`). -/
theorem lclm_ladder_bound (solver : List (List K) → List (List K)) (A B : Op ob)
    (hsol : SolverOK solver) (hA : A ≠ 0) (hB : B ≠ 0)
    (hra : 1 ≤ A.ord) (hrb : 1 ≤ B.ord) :
    ∃ t v, lclmLadder solver (numerator A) (numerator B)
        ((numerator A).l.length - 1) ((numerator B).l.length - 1)
        (((numerator A).l.length - 1) + ((numerator B).l.length - 1) + 2)
        (max ((numerator A).l.length - 1) ((numerator B).l.length - 1)) =
        some (t, v) ∧ (t : ℤ) ≤ A.ord + B.ord := by
  have hA0 := numerator_ne_zero hA
  have hB0 := numerator_ne_zero hB
  obtain ⟨t2, v, tl, hrun, _, _, _, hle⟩ := lclmLadder_reaches solver hsol
    (numerator A) (numerator B) hA0 hB0
    (((numerator A).l.length - 1) + ((numerator B).l.length - 1) + 2)
    (max ((numerator A).l.length - 1) ((numerator B).l.length - 1))
    (le_max_left _ _) (le_max_right _ _)
    (by omega)
    (by omega)
  refine ⟨t2, v, hrun, ?_⟩
  have e1 : (numerator A).l.length = A.l.length := length_numerator A
  have e2 : (numerator B).l.length = B.l.length := length_numerator B
  have o1 : A.ord = (A.l.length : ℤ) - 1 := rfl
  have o2 : B.ord = (B.l.length : ℤ) - 1 := rfl
  rw [o1, o2]
  rw [e1, e2] at hle
  have := length_pos_of_ne hA
  have := length_pos_of_ne hB
  omega

end Op

namespace Op

variable {K : Type} [Field K] [DecidableEq K] {ob : OreBase K}

theorem length_trim_le (l : List K) : (trim l).length ≤ l.length :=
  length_trim_le_iff.mpr (fun _ hm => coeff_eq_zero_of_length_le hm)

theorem zero_of_ord_neg {x : Op ob} (h : x.ord < 0) : x = 0 := by
  apply zero_iff_l_nil.mpr
  have : x.l.length = 0 := by
    unfold ord at h
    omega
  exact List.length_eq_zero.mp this

theorem ord_nonneg {x : Op ob} (h : x ≠ 0) : 0 ≤ x.ord := by
  have := length_pos_of_ne h
  unfold ord
  omega

theorem cst_mul (c : K) (A : Op ob) : cst ob c * A = c • A := by
  by_cases hc : c = 0
  · subst hc
    have h1 : cst ob (0 : K) = 0 := eq_of_l_eq (by show trim [0] = []; simp [trim])
    rw [h1, zero_mul]
    exact extc (fun n => by simp)
  · apply extc
    intro n
    rw [cf_mul, cf_smul]
    have hl : (cst ob c).l = [c] := by
      show trim [c] = [c]
      apply trim_eq_self_of_getLast?
      simp [List.getLast?_singleton, hc]
    rw [hl, OreBase.mulAux, OreBase.mulAux, coeff_addL, coeff_smulL]
    simp [cf]

theorem numerator_eq_smul (x : Op ob) : ∃ c : K, c ≠ 0 ∧ numerator x = c • x := by
  rw [numerator]
  by_cases h : ob.isField
  · rw [if_pos h]
    exact ⟨ob.denomLcm x.l, ob.denomLcm_ne_zero x.l, rfl⟩
  · rw [if_neg h]
    exact ⟨1, one_ne_zero, (one_smul_op x).symm⟩

theorem mat_getD_left {A0 B0 : Op ob} {t : Nat} (r s : Nat) {i : Nat}
    (hi : i < t - r + 1) :
    (((genRows A0 (t - r) ++ genRows B0 (t - s)).map (fun p => coeffsPad p t)).getD i
      []) = coeffsPad (genPowMul A0 i) t := by
  have hlen : i < ((genRows A0 (t - r) ++ genRows B0 (t - s)).map
      (fun p => coeffsPad p t)).length := by
    rw [ladderMat_length]
    omega
  rw [List.getD_eq_getElem?_getD, List.getElem?_eq_getElem hlen]
  simp only [Option.getD_some, List.getElem_map]
  congr 1
  rw [List.getElem_append_left (by simp [genRows]; omega)]
  simp [genRows]

theorem mat_getD_right {A0 B0 : Op ob} {t : Nat} (r s : Nat) {j : Nat}
    (hj : j < t - s + 1) :
    (((genRows A0 (t - r) ++ genRows B0 (t - s)).map (fun p => coeffsPad p t)).getD
      (t - r + 1 + j) []) = coeffsPad (genPowMul B0 j) t := by
  have hlen : t - r + 1 + j < ((genRows A0 (t - r) ++ genRows B0 (t - s)).map
      (fun p => coeffsPad p t)).length := by
    rw [ladderMat_length]
    omega
  rw [List.getD_eq_getElem?_getD, List.getElem?_eq_getElem hlen]
  simp only [Option.getD_some, List.getElem_map]
  congr 1
  have hA : (genRows A0 (t - r)).length = t - r + 1 := by simp [genRows]
  rw [List.getElem_append_right (by rw [hA]; omega)]
  simp only [genRows, List.getElem_map, List.getElem_range]
  congr 1
  rw [List.length_map, List.length_range]
  omega

theorem kernel_to_op {A0 B0 : Op ob} {t r s : Nat} {v : List K}
    (hr : A0.l.length - 1 = r) (hs : B0.l.length - 1 = s)
    (hrt : r ≤ t) (hst : s ≤ t)
    (hker : IsKernelVec ((genRows A0 (t - r) ++ genRows B0 (t - s)).map
        (fun p => coeffsPad p t)) v) :
    ofL ob (v.take (t + 1 - r)) * A0 + ofL ob (v.drop (t + 1 - r)) * B0 = 0 := by
  apply extc
  intro n
  rw [cf_add, cf_mul, cf_mul, cf_zero]
  have hLU : (ofL ob (v.take (t + 1 - r))).l = trim (v.take (t + 1 - r)) := rfl
  have hLW : (ofL ob (v.drop (t + 1 - r))).l = trim (v.drop (t + 1 - r)) := rfl
  have hU : coeff (ob.mulAux (trim (v.take (t + 1 - r))) A0.l) n =
      ∑ i ∈ Finset.range (t - r + 1), coeff v i *
        coeff ((((genRows A0 (t - r) ++ genRows B0 (t - s)).map
          (fun p => coeffsPad p t)).getD i []) : List K) n := by
    rw [cf_mulAux_sum_of_le _ _ n (t - r + 1)
      (le_trans (length_trim_le _) (by rw [List.length_take]; omega))]
    apply Finset.sum_congr rfl
    intro i hi
    rw [Finset.mem_range] at hi
    rw [coeff_trim, coeff_take_lt (by omega), mat_getD_left r s hi, coeff_coeffsPad,
      cf_genPowMul]
  have hW : coeff (ob.mulAux (trim (v.drop (t + 1 - r))) B0.l) n =
      ∑ j ∈ Finset.range (t - s + 1), coeff v (t - r + 1 + j) *
        coeff ((((genRows A0 (t - r) ++ genRows B0 (t - s)).map
          (fun p => coeffsPad p t)).getD (t - r + 1 + j) []) : List K) n := by
    have hvl := hker.1
    rw [ladderMat_length] at hvl
    rw [cf_mulAux_sum_of_le _ _ n (t - s + 1)
      (le_trans (length_trim_le _) (by rw [List.length_drop]; omega))]
    apply Finset.sum_congr rfl
    intro j hj
    rw [Finset.mem_range] at hj
    rw [coeff_trim, coeff_drop]
    have harg : t + 1 - r + j = t - r + 1 + j := by omega
    rw [harg, mat_getD_right r s hj, coeff_coeffsPad, cf_genPowMul]
  rw [hLU, hLW, hU, hW]
  have hsplit := hker.2 n
  rw [ladderMat_length, Finset.sum_range_add] at hsplit
  exact hsplit

theorem kernel_U_ne_zero {A0 B0 : Op ob} (hB0 : B0 ≠ 0) {t r s : Nat} {v : List K}
    (hr : A0.l.length - 1 = r) (hs : B0.l.length - 1 = s)
    (hrt : r ≤ t) (hst : s ≤ t)
    (hker : IsKernelVec ((genRows A0 (t - r) ++ genRows B0 (t - s)).map
        (fun p => coeffsPad p t)) v)
    (hnt : ∃ i, coeff v i ≠ 0) :
    ofL ob (v.take (t + 1 - r)) ≠ 0 := by
  intro hU
  obtain ⟨i, hi⟩ := hnt
  have hsum := kernel_to_op hr hs hrt hst hker
  rw [hU, zero_mul, zero_add] at hsum
  have hW : ofL ob (v.drop (t + 1 - r)) = 0 := by
    by_contra hW
    exact mul_ne_zero_op hW hB0 hsum
  have hvl := hker.1
  rw [ladderMat_length] at hvl
  apply hi
  by_cases hik : i < t + 1 - r
  · have hcf := congrArg (fun z => Op.cf z i) hU
    simp only [cf_zero] at hcf
    rw [← hcf]
    show coeff v i = coeff (trim (v.take (t + 1 - r))) i
    rw [coeff_trim, coeff_take_lt hik]
  · by_cases hiv : i < v.length
    · have hcf := congrArg (fun z => Op.cf z (i - (t + 1 - r))) hW
      simp only [cf_zero] at hcf
      rw [← hcf]
      show coeff v i = coeff (trim (v.drop (t + 1 - r))) _
      rw [coeff_trim, coeff_drop]
      congr 1
      omega
    · exact coeff_eq_zero_of_length_le (by omega)

end Op

namespace Op

variable {K : Type} [Field K] [DecidableEq K] {ob : OreBase K}

theorem quoRem_of_exact {L U2 X : Op ob} (hX : X ≠ 0) (h : U2 * X = L) :
    quoRem L X false = some (U2, 0) := by
  obtain ⟨Q, R, heq, hval, hRsmall⟩ := quoRem_correct L X hX
  obtain ⟨h1, h2⟩ := quoRem_unique hX hval hRsmall
    (show U2 * X + 0 = L by rw [add_zero, h]) (Or.inl rfl)
  rw [h1, h2] at heq
  exact heq

theorem quoRem_by_ord_zero {X Y : Op ob} (hY : Y ≠ 0) (hYo : Y.ord = 0) :
    ∃ Q, quoRem X Y false = some (Q, 0) ∧ Q * Y = X := by
  obtain ⟨Q, R, heq, hval, hR⟩ := quoRem_correct X Y hY
  have hR0 : R = 0 := by
    rcases hR with h | h
    · exact h
    · exact zero_of_ord_neg (by omega)
  rw [hR0] at heq hval
  rw [add_zero] at hval
  exact ⟨Q, heq, hval⟩

theorem xlclm_eq {solver : List (List K) → List (List K)} {A B L : Op ob}
    (h : lclm solver A B = some L) {qa qb : Op ob × Op ob}
    (ha : quoRem L A false = some qa) (hb : quoRem L B false = some qb) :
    xlclm solver A B = some (L, qa.1, qb.1) := by
  rw [xlclm, h]
  show (match quoRem L A false, quoRem L B false with
    | some qa, some qb => some (L, qa.1, qb.1)
    | _, _ => none) = _
  rw [ha, hb]

/-- Claim C3.  For nonzero `A`, `B` and a solver satisfying its contract,
`xlclm(A, B) = (L, U, V)` (with `L = lclm(A, B)`) satisfies
`U*A == L == V*B` over the fraction field of the base ring, and
`order(L) <= order(A) + order(B)`. -/
theorem xlclm_cofactors (solver : List (List K) → List (List K)) (A B : Op ob)
    (hsol : SolverOK solver) (hA : A ≠ 0) (hB : B ≠ 0) :
    ∃ L U V, xlclm solver A B = some (L, U, V) ∧ U * A = L ∧ V * B = L ∧
      L.ord ≤ A.ord + B.ord := by
  have hAB : ¬(A = 0 ∨ B = 0) := by
    push_neg
    exact ⟨hA, hB⟩
  by_cases hAo : A.ord = 0
  · have hlclm : lclm solver A B = some B := by
      rw [lclm, if_neg hAB, if_pos hAo]
    obtain ⟨QA, hqa, hmulA⟩ := quoRem_by_ord_zero (X := B) hA hAo
    have hqb : quoRem B B false = some (1, 0) := quoRem_of_exact hB (one_mul B)
    refine ⟨B, QA, 1, xlclm_eq hlclm hqa hqb, hmulA, one_mul B, ?_⟩
    rw [hAo, zero_add]
  · by_cases hBl : B.l.length ≤ 1
    · have hlclm : lclm solver A B = some A := by
        rw [lclm, if_neg hAB, if_neg hAo, if_pos hBl]
      have hBo : B.ord = 0 := by
        have := length_pos_of_ne hB
        unfold ord
        omega
      have hqa : quoRem A A false = some (1, 0) := quoRem_of_exact hA (one_mul A)
      obtain ⟨QB, hqb, hmulB⟩ := quoRem_by_ord_zero (X := A) hB hBo
      refine ⟨A, 1, QB, xlclm_eq hlclm hqa hqb, one_mul A, hmulB, ?_⟩
      rw [hBo, add_zero]
    · have hA0 : numerator A ≠ 0 := numerator_ne_zero hA
      have hB0 : numerator B ≠ 0 := numerator_ne_zero hB
      have hlenA : (numerator A).l.length = A.l.length := length_numerator A
      have hlenB : (numerator B).l.length = B.l.length := length_numerator B
      have hApos := length_pos_of_ne hA
      have hBpos := length_pos_of_ne hB
      have hA2 : 2 ≤ A.l.length := by
        rcases Nat.lt_or_ge A.l.length 2 with h | h
        · exfalso
          apply hAo
          unfold ord
          omega
        · exact h
      have hB2 : 2 ≤ B.l.length := by omega
      obtain ⟨t, v, tl, hrun, hsv, hra2, hrb2, hle⟩ := lclmLadder_reaches solver hsol
        (numerator A) (numerator B) hA0 hB0
        (((numerator A).l.length - 1) + ((numerator B).l.length - 1) + 2)
        (max ((numerator A).l.length - 1) ((numerator B).l.length - 1))
        (le_max_left _ _) (le_max_right _ _) (by omega) (by omega)
      have hmem : v ∈ solver ((genRows (numerator A) (t - ((numerator A).l.length - 1)) ++
          genRows (numerator B) (t - ((numerator B).l.length - 1))).map
          (fun p => coeffsPad p t)) := by
        rw [hsv]
        exact List.mem_cons_self _ _
      obtain ⟨hker, hnt⟩ := (hsol _).2 v hmem
      have hUne : ofL ob (v.take (t + 1 - ((numerator A).l.length - 1))) ≠ 0 :=
        kernel_U_ne_zero hB0 rfl rfl hra2 hrb2 hker hnt
      have hUW := kernel_to_op rfl rfl hra2 hrb2 hker
      set U := ofL ob (v.take (t + 1 - ((numerator A).l.length - 1))) with hUdef
      set W := ofL ob (v.drop (t + 1 - ((numerator A).l.length - 1))) with hWdef
      have hlclm : lclm solver A B = some (U * numerator A) := by
        rw [lclm, if_neg hAB, if_neg hAo, if_neg hBl]
        show (match lclmLadder solver (numerator A) (numerator B)
            (((numerator A)).l.length - 1) (((numerator B)).l.length - 1)
            ((((numerator A)).l.length - 1) + (((numerator B)).l.length - 1) + 2)
            (max (((numerator A)).l.length - 1) (((numerator B)).l.length - 1)) with
          | none => none
          | some (t, v) =>
            some (ofL ob (v.take (t + 1 - ((numerator A).l.length - 1))) * numerator A)) = _
        rw [hrun]
      obtain ⟨cA, hcA, hnumA⟩ := numerator_eq_smul A
      obtain ⟨cB, hcB, hnumB⟩ := numerator_eq_smul B
      have hLA : (U * cst ob cA) * A = U * numerator A := by
        rw [mul_assoc, cst_mul, ← hnumA]
      have hLB : ((-W) * cst ob cB) * B = U * numerator A := by
        rw [mul_assoc, cst_mul, ← hnumB]
        have h1 : U * numerator A = -(W * numerator B) :=
          eq_neg_of_add_eq_zero_left hUW
        rw [h1, neg_mul]
      have hqa : quoRem (U * numerator A) A false = some (U * cst ob cA, 0) :=
        quoRem_of_exact hA hLA
      have hqb : quoRem (U * numerator A) B false = some ((-W) * cst ob cB, 0) :=
        quoRem_of_exact hB hLB
      refine ⟨U * numerator A, U * cst ob cA, (-W) * cst ob cB,
        xlclm_eq hlclm hqa hqb, hLA, hLB, ?_⟩
      have hUlen : U.l.length ≤ t + 1 - (A.l.length - 1) := by
        rw [hUdef]
        show (trim _).length ≤ _
        refine le_trans (length_trim_le _) ?_
        rw [List.length_take, hlenA]
        omega
      have hordL : (U * numerator A).ord = U.ord + (numerator A).ord :=
        ord_mul hUne hA0
      rw [hordL]
      show U.ord + (numerator A).ord ≤ A.ord + B.ord
      have e1 : (numerator A).ord = A.ord := by
        unfold ord
        rw [hlenA]
      rw [e1]
      have hUo : U.ord = (U.l.length : ℤ) - 1 := rfl
      have hAo2 : A.ord = (A.l.length : ℤ) - 1 := rfl
      have hBo2 : B.ord = (B.l.length : ℤ) - 1 := rfl
      rw [hlenA, hlenB] at hle
      rw [hUo, hAo2, hBo2]
      have hUlen2 := hUlen
      omega

end Op

namespace Op

-- A canonical solver satisfying the contract: pick (by choice) one
-- nontrivial kernel vector when the null space is nontrivial, else return
-- the empty basis.  It stands in for the external linear-algebra backend.
open Classical in
noncomputable def choiceSolver {K : Type} [Field K] [DecidableEq K]
    (rows : List (List K)) : List (List K) :=
  if h : ∃ c, IsKernelVec rows c ∧ ∃ i, coeff c i ≠ 0 then [Classical.choose h]
  else []

theorem choiceSolver_ok {K : Type} [Field K] [DecidableEq K] :
    SolverOK (choiceSolver : List (List K) → List (List K)) := by
  intro rows
  constructor
  · intro hemp c hc i
    by_contra hne
    rw [choiceSolver, dif_pos ⟨c, hc, i, hne⟩] at hemp
    exact List.cons_ne_nil _ _ hemp
  · intro v hv
    rw [choiceSolver] at hv
    split at hv
    · next h =>
      obtain rfl := List.mem_singleton.mp hv
      exact Classical.choose_spec h
    · exact absurd hv (List.not_mem_nil v)

theorem lclm_ladder_bound_witness :
    (cD ≠ 0 ∧ (1 : ℤ) ≤ cD.ord) ∧
      ∃ t v, lclmLadder choiceSolver (numerator cD) (numerator cD)
        ((numerator cD).l.length - 1) ((numerator cD).l.length - 1)
        (((numerator cD).l.length - 1) + ((numerator cD).l.length - 1) + 2)
        (max ((numerator cD).l.length - 1) ((numerator cD).l.length - 1)) =
        some (t, v) ∧ (t : ℤ) ≤ cD.ord + cD.ord :=
  ⟨⟨by decide, by decide⟩,
    lclm_ladder_bound choiceSolver cD cD choiceSolver_ok (by decide) (by decide)
      (by decide) (by decide)⟩

theorem xlclm_cofactors_witness :
    (cD ≠ 0 ∧ wB ≠ 0) ∧
      ∃ L U V, xlclm choiceSolver cD wB = some (L, U, V) ∧ U * cD = L ∧
        V * wB = L ∧ L.ord ≤ cD.ord + wB.ord :=
  ⟨⟨by decide, by decide⟩,
    xlclm_cofactors choiceSolver cD wB choiceSolver_ok (by decide) (by decide)⟩

end Op

namespace Op

variable {K : Type} [Field K] [DecidableEq K] {ob : OreBase K}

/-- The loop body of the action method (source lines 640-652 of
src/ore_operator.py): starting from `Dif = f` and `result = self[0]*f`, each
turn applies the action once more and adds the next coefficient times it. -/
def callAux (cs : List K) (act : K → K) (dif : K) : K :=
  match cs with
  | [] => 0
  | c :: rest => c * dif + callAux rest act (act dif)

/-- The operator applied to `f` with action map `act`; the default action
in the source is the identity. -/
def callOp (P : Op ob) (f : K) (act : K → K) : K := callAux P.l act f

/-- `symmetric_power` on a nonnegative exponent (source lines 1183-1195),
with the symmetric product supplied as a function `sp` (it closes over the
solver); exponent `0` returns `D - R(D(R.one()))` for `D` the generator. -/
def spowNat (sp : Op ob → Op ob → Op ob) (P : Op ob) : Nat → Op ob
  | 0 => gen ob - cst ob (callOp (gen ob) 1 (fun p => p))
  | 1 => P
  | n + 2 =>
    if (n + 2) % 2 = 1 then sp (spowNat sp P (n + 1)) P
    else sp (spowNat sp P ((n + 2) / 2)) (spowNat sp P ((n + 2) / 2))
decreasing_by all_goals omega

/-- `symmetric_power` (source lines 1160-1197): a negative exponent raises
`TypeError` (modelled by `none`). -/
def spow (sp : Op ob → Op ob → Op ob) (P : Op ob) (exp : ℤ) : Option (Op ob) :=
  if exp < 0 then none else some (spowNat sp P exp.toNat)

end Op

namespace Op

variable {K : Type} [Field K] [DecidableEq K] {ob : OreBase K}

theorem callOp_gen_one : callOp (gen ob) (1 : K) (fun p => p) = 1 := by
  rw [callOp, l_gen]
  simp [callAux]

/-- Claim C6.  `symmetric_power(L, n)`: a negative exponent is a domain
error; exponent 0 gives the annihilator of constants, the generator minus
its action on 1 (which, the default action being the identity, is the
algebra's one); exponent 1 gives `L` back; for even `n > 1` the result is
`symmetric_power(L, n/2)` symmetric-multiplied with itself and for odd
`n > 1` it is `symmetric_power(L, n-1)` symmetric-multiplied with `L`. -/
theorem symmetric_power_cases (sp : Op ob → Op ob → Op ob) (P : Op ob) :
    (∀ e : ℤ, e < 0 → spow sp P e = none) ∧
      spow sp P 0 = some (gen ob - cst ob (callOp (gen ob) 1 (fun p => p))) ∧
      cst ob (callOp (gen ob) (1 : K) (fun p => p)) = 1 ∧
      spow sp P 1 = some P ∧
      (∀ e : ℤ, 1 < e → e % 2 = 0 →
        spow sp P e = (spow sp P (e / 2)).map (fun L => sp L L)) ∧
      (∀ e : ℤ, 1 < e → e % 2 = 1 →
        spow sp P e = (spow sp P (e - 1)).map (fun L => sp L P)) := by
  refine ⟨?_, ?_, ?_, ?_, ?_, ?_⟩
  · intro e he
    rw [spow, if_pos he]
  · rw [spow, if_neg (by omega)]
    simp only [Int.toNat_zero, spowNat]
  · rw [callOp_gen_one]
    rfl
  · rw [spow, if_neg (by omega)]
    simp only [Int.toNat_one, spowNat]
  · intro e h1 h2
    obtain ⟨n, hn⟩ : ∃ n : ℕ, e.toNat = n + 2 := ⟨e.toNat - 2, by omega⟩
    rw [spow, if_neg (by omega), spow, if_neg (by omega), hn]
    have hmod : ¬(n + 2) % 2 = 1 := by omega
    have hdiv : (e / 2).toNat = (n + 2) / 2 := by omega
    rw [spowNat, if_neg hmod, hdiv]
    rfl
  · intro e h1 h2
    obtain ⟨n, hn⟩ : ∃ n : ℕ, e.toNat = n + 2 := ⟨e.toNat - 2, by omega⟩
    rw [spow, if_neg (by omega), spow, if_neg (by omega), hn]
    have hmod : (n + 2) % 2 = 1 := by omega
    have hsub : (e - 1).toNat = n + 1 := by omega
    rw [spowNat, if_pos hmod, hsub]
    rfl

end Op

namespace Op

theorem symmetric_power_cases_witness :
    spow (fun X Y : Op F2B => X * Y) cD (-1) = none ∧
      spow (fun X Y : Op F2B => X * Y) cD 4 =
        (spow (fun X Y : Op F2B => X * Y) cD ((4 : ℤ) / 2)).map (fun L => L * L) ∧
      spow (fun X Y : Op F2B => X * Y) cD 3 =
        (spow (fun X Y : Op F2B => X * Y) cD ((3 : ℤ) - 1)).map (fun L => L * cD) :=
  ⟨(symmetric_power_cases (fun X Y => X * Y) cD).1 (-1) (by decide),
    (symmetric_power_cases (fun X Y => X * Y) cD).2.2.2.2.1 4 (by decide) (by decide),
    (symmetric_power_cases (fun X Y => X * Y) cD).2.2.2.2.2 3 (by decide) (by decide)⟩

end Op

namespace Op

variable {K : Type} [Field K] [DecidableEq K] {ob : OreBase K}

end Op

namespace Op

end Op

namespace Op

end Op

namespace Op

variable {K : Type} [Field K] [DecidableEq K] {ob : OreBase K}

end Op

namespace Op

end Op

namespace Op

end Op

namespace Op

variable {K : Type} [Field K] [DecidableEq K] {ob : OreBase K}

end Op

namespace Op

end Op

